import Mathlib

/-!
# Verification of the Nelson Muntz / Ralph Wiggum opencode plugin core

This file gives a shallow embedding of the plugin's plan parser
(`parsePlanFile`), plan mutator (`updateTaskStatus`), completion-promise
detector (`extractPromiseText`), loop-start tools and the session-idle
handler, translated from the TypeScript sources (src/index.ts, the plan
and loop tool modules, src/prompts.ts).  Raw text is modelled as
`List Char`; JavaScript regular expressions are modelled by executable
matchers that mirror the engine's leftmost / greedy / lazy backtracking
behaviour for the specific patterns that appear in the source.
-/

/-- JavaScript `\s` character class (also the set trimmed by
`String.prototype.trim`): space, tab, LF, VT, FF, CR, NBSP, and the
Unicode space separators plus BOM. -/
def jsWs (c : Char) : Bool :=
  c = ' ' || c = '\t' || c = '\n' || c = '\r' ||
  c.toNat = 0x0b || c.toNat = 0x0c || c.toNat = 0xa0 || c.toNat = 0x1680 ||
  (0x2000 ≤ c.toNat && c.toNat ≤ 0x200a) ||
  c.toNat = 0x2028 || c.toNat = 0x2029 || c.toNat = 0x202f ||
  c.toNat = 0x205f || c.toNat = 0x3000 || c.toNat = 0xfeff

/-- ASCII lower-casing, as used by regex `/i` matching and `toLowerCase`
on the characters appearing in the source patterns. -/
def asciiLower (c : Char) : Char :=
  if 'A' ≤ c && c ≤ 'Z' then Char.ofNat (c.toNat + 32) else c

/-- `String.prototype.trim`: drop leading and trailing JS whitespace. -/
def jsTrim (l : List Char) : List Char :=
  ((l.dropWhile jsWs).reverse.dropWhile jsWs).reverse

/-- `replace(/\s+/g, " ")`: collapse every maximal whitespace run to a
single space.  `started` records whether we are inside a run. -/
def collapseWsAux : Bool → List Char → List Char
  | _, [] => []
  | inRun, c :: t =>
    if jsWs c then
      if inRun then collapseWsAux true t else ' ' :: collapseWsAux true t
    else c :: collapseWsAux false t

def collapseWs (l : List Char) : List Char := collapseWsAux false l

/-- `content.split("\n")`. -/
def splitLines : List Char → List (List Char)
  | [] => [[]]
  | c :: t =>
    if c = '\n' then [] :: splitLines t
    else
      match splitLines t with
      | [] => [[c]]
      | h :: r => (c :: h) :: r

/-- `lines.join("\n")`. -/
def joinLines : List (List Char) → List Char
  | [] => []
  | [l] => l
  | l :: ls => l ++ '\n' :: joinLines ls

/-- First occurrence replacement of a three-character checkbox pattern
`[m]` (with `mid` deciding the admissible middle character) by `[r]`,
mirroring `line.replace(/\[\s\]/, "[x]")` and
`line.replace(/\[[xX]\]/, "[ ]")`. -/
def replaceBox (mid : Char → Bool) (r : Char) : List Char → List Char
  | '[' :: b :: ']' :: rest2 =>
    if mid b then '[' :: r :: ']' :: rest2
    else '[' :: replaceBox mid r (b :: ']' :: rest2)
  | a :: rest => a :: replaceBox mid r rest
  | [] => []

/-- Number of (necessarily disjoint) occurrences of the checkbox pattern
`[m]` in a character list, scanning like `replaceBox`. -/
def countBox (mid : Char → Bool) : List Char → Nat
  | '[' :: b :: ']' :: rest2 =>
    if mid b then 1 + countBox mid (']' :: rest2)
    else countBox mid (b :: ']' :: rest2)
  | _ :: rest => countBox mid rest
  | [] => 0

/-- Case-insensitive literal prefix test (`pat` is given in lower case). -/
def stripCI : List Char → List Char → Option (List Char)
  | [], l => some l
  | _, [] => none
  | p :: ps, c :: cs => if asciiLower c = p then stripCI ps cs else none

/-! ## The line classifiers of `parsePlanFile`

Each definition mirrors one of the regular expressions used in the
line loop of `parsePlanFile` (src/index.ts / src/plan.ts). -/

/-- `line.match(/^#\s+(.+)/)` viewed as a Boolean: a `#`, at least one
whitespace character, and at least one further character. -/
def isTitleLine : List Char → Bool
  | '#' :: c :: _ :: _ => jsWs c
  | _ => false

/-- `line.replace(/^#\s+/, "").trim()` on a matching line. -/
def titleValue (l : List Char) : List Char :=
  jsTrim ((l.drop 1).dropWhile jsWs)

/-- `line.match(/^##\s+Overview/i)`. -/
def isOverviewHeading : List Char → Bool
  | '#' :: '#' :: c :: t =>
    jsWs c && (stripCI "overview".data ((c :: t).dropWhile jsWs)).isSome
  | _ => false

/-- `line.match(/^##\s+Tasks/i)`. -/
def isTasksHeading : List Char → Bool
  | '#' :: '#' :: c :: t =>
    jsWs c && (stripCI "tasks".data ((c :: t).dropWhile jsWs)).isSome
  | _ => false

/-- `line.match(/^\s{2,}/) && line.trim()`: at least two leading
whitespace characters and some non-whitespace content. -/
def isDescLine (l : List Char) : Bool :=
  match l with
  | a :: b :: _ => jsWs a && jsWs b && !(jsTrim l).isEmpty
  | _ => false

/-! ### The completion-promise declaration

`line.match(/completion[_-]?promise:\s*["']?([^"'\n]+)["']?/i)` is an
unanchored, case-insensitive search.  `promiseCore` matches the literal
part at the current position, `promiseCont` matches the continuation
`\s*["']?([^"'\n]+)["']?` (returning the captured group) with the
engine's greedy/backtracking behaviour, and `promiseSearch` scans
positions left to right. -/

def isQuote (c : Char) : Bool := c = '"' || c = '\''

/-- `[^"'\n]+` at the head of `r` (inside a line, so no `\n` occurs). -/
def promiseGroup (r : List Char) : Option (List Char) :=
  let run := r.takeWhile (fun c => !isQuote c)
  if run.isEmpty then none else some run

/-- `["']?([^"'\n]+)["']?` at the head of `r`; the optional leading quote
is tried greedily first, and the optional trailing quote never forces
backtracking because the pattern ends there. -/
def promiseTail (r : List Char) : Option (List Char) :=
  match r with
  | c :: cs =>
    if isQuote c then
      match promiseGroup cs with
      | some g => some g
      | none => promiseGroup r
    else promiseGroup r
  | [] => none

/-- `\s*` before `promiseTail`, greedy with backtracking: try the maximal
whitespace run first, then shorter ones. -/
def promiseContAux (r : List Char) : Nat → Option (List Char)
  | 0 => promiseTail r
  | k + 1 =>
    match promiseTail (r.drop (k + 1)) with
    | some g => some g
    | none => promiseContAux r k

def promiseCont (r : List Char) : Option (List Char) :=
  promiseContAux r (r.takeWhile jsWs).length

/-- `completion[_-]?promise:` at the current position (case-insensitive).
If the optional `[_-]` is present it must be followed by `promise:`;
when it is absent the same literal must follow directly. -/
def promiseCore (l : List Char) : Option (List Char) :=
  match stripCI "completion".data l with
  | none => none
  | some r =>
    match r with
    | c :: cs =>
      if c = '_' || c = '-' then stripCI "promise:".data cs
      else stripCI "promise:".data r
    | [] => none

/-- The full unanchored search, returning the captured group of the
leftmost match. -/
def promiseSearch : List Char → Option (List Char)
  | [] => none
  | l@(_ :: t) =>
    match promiseCore l with
    | some r =>
      match promiseCont r with
      | some g => some g
      | none => promiseSearch t
    | none => promiseSearch t

/-! ### The task (checkbox) line

`line.match(/^(?:\d+\.\s+)?-?\s*\[([ xX])\]\s*(?:\*\*)?(.+?)(?:\*\*)?$/)`.

`taskPre` matches the anchored part before the opening bracket and
returns the consumed prefix together with the rest (which starts with
`[`).  `taskTitleRaw` computes the lazily captured group `(.+?)` of the
tail `\s*(?:\*\*)?(.+?)(?:\*\*)?$`. -/

/-- The part of a checkbox line before `[`: either `\d+\.\s+-?\s*` (a
numbered-list marker) or `-?\s*`.  Mirrors the regex including its
fallback: when the numbered branch fails the engine retries without it,
which can only succeed if the line does not start with a digit. -/
def taskPrePlain (l : List Char) : Option (List Char × List Char) :=
  let (dash, r1) :=
    match l with
    | '-' :: r => (['-'], r)
    | _ => ([], l)
  let w := r1.takeWhile jsWs
  let r2 := r1.drop w.length
  match r2 with
  | '[' :: _ => some (dash ++ w, r2)
  | _ => none

def taskPreNumTail (ds w dash r3 l : List Char) : Option (List Char × List Char) :=
  let w2 := r3.takeWhile jsWs
  let r4 := r3.drop w2.length
  match r4 with
  | '[' :: _ => some (ds ++ '.' :: w ++ dash ++ w2, r4)
  | _ => taskPrePlain l

def taskPreNum (ds r1 l : List Char) : Option (List Char × List Char) :=
  let w := r1.takeWhile jsWs
  if w.isEmpty then taskPrePlain l
  else
    match r1.drop w.length with
    | '-' :: r3 => taskPreNumTail ds w ['-'] r3 l
    | r2 => taskPreNumTail ds w [] r2 l

def taskPre (l : List Char) : Option (List Char × List Char) :=
  let ds := l.takeWhile Char.isDigit
  if ds.isEmpty then taskPrePlain l
  else
    match l.drop ds.length with
    | '.' :: r1 => taskPreNum ds r1 l
    | _ => taskPrePlain l

/-- The lazy group `(.+?)` of `(?:\*\*)?(.+?)(?:\*\*)?$` on a nonempty
remainder: the shortest nonempty prefix whose remainder is exactly `""`
or `"**"`. -/
def lazyCore (r : List Char) : List Char :=
  if r.length > 2 && r.drop (r.length - 2) = ['*', '*'] then
    r.take (r.length - 2)
  else r

/-- The captured group of `\s*(?:\*\*)?(.+?)(?:\*\*)?$` applied to the
text after the closing bracket.  `\s*` is greedy but backs off so that
at least one character remains for `(.+?)`; the optional leading `**`
is consumed greedily when at least one character remains after it. -/
def taskTitleRaw (post : List Char) : List Char :=
  let k := min (post.takeWhile jsWs).length (post.length - 1)
  let r1 := post.drop k
  if r1.take 2 = ['*', '*'] && r1.length > 2 then lazyCore (r1.drop 2)
  else lazyCore r1

/-- The full checkbox-line match: returns the prefix before `[`, the
checkbox character, and the text after `]` (which must be nonempty for
`(.+?)` to match). -/
def taskMatch (l : List Char) : Option (List Char × Char × List Char) :=
  match taskPre l with
  | some (pre, '[' :: c :: ']' :: post) =>
    if (c = ' ' || c = 'x' || c = 'X') && !post.isEmpty then
      some (pre, c, post)
    else none
  | _ => none

example : taskMatch "- [ ] Task 1".data = some ("- ".data, ' ', " Task 1".data) := by decide
example : taskMatch "1. - [x] **Bold**".data = some ("1. - ".data, 'x', " **Bold**".data) := by decide
example : taskMatch "  - [ ] indented".data = none := by decide
example : taskMatch "  [X] ws only".data = some ("  ".data, 'X', " ws only".data) := by decide
example : taskMatch "- [y] nope".data = none := by decide
example : jsTrim (taskTitleRaw " **Bold Task Title**".data) = "Bold Task Title".data := by decide
example : jsTrim (taskTitleRaw " T**".data) = "T".data := by decide
example : promiseSearch "completion_promise: \"DONE\"".data = some "DONE".data := by decide
example : promiseSearch "completionPromise: DONE".data = some "DONE".data := by decide
example : promiseSearch "- [ ] Task 1".data = none := by decide

/-! ## Data model (src/types.ts) -/

inductive TaskStatus where
  | pending
  | in_progress
  | completed
  | skipped
deriving DecidableEq, Repr, Inhabited

/-- `PlanTask` of src/types.ts. -/
structure PlanTask where
  id : List Char
  title : List Char
  description : List Char
  status : TaskStatus
  lineNumber : Nat
deriving DecidableEq, Repr, Inhabited

/-- `ParsedPlan` of src/types.ts. -/
structure ParsedPlan where
  title : List Char
  overview : List Char
  tasks : List PlanTask
  completionPromise : Option (List Char)
  rawContent : List Char
deriving DecidableEq, Repr, Inhabited

/-- `` `task-${n}` ``. -/
def taskIdStr (n : Nat) : List Char := "task-".data ++ (Nat.repr n).data

/-- The loop state of `parsePlanFile`: the mutable locals of its `for`
loop. -/
structure PState where
  title : List Char
  overview : List Char
  completionPromise : Option (List Char)
  inOverview : Bool
  currentTask : Option PlanTask
  taskDescription : List (List Char)
  tasks : List PlanTask
deriving DecidableEq, Repr, Inhabited

def initPState : PState :=
  { title := [], overview := [], completionPromise := none,
    inOverview := false, currentTask := none, taskDescription := [], tasks := [] }

/-- Flushing the pending task: `currentTask.description =
taskDescription.join("\n").trim(); tasks.push(currentTask)`. -/
def flushTasks (s : PState) : List PlanTask :=
  match s.currentTask with
  | none => s.tasks
  | some ct => s.tasks ++ [{ ct with description := jsTrim (joinLines s.taskDescription) }]

/-- The status encoded by a checkbox character:
`taskMatch[1].toLowerCase() === "x"`. -/
def charStatus (c : Char) : TaskStatus :=
  if c = 'x' || c = 'X' then .completed else .pending

/-- One iteration of the `for` loop of `parsePlanFile`, for the line
`line` at 1-based position `n`.  The branches appear in source order:
title, completion promise, `## Overview`, `## Tasks`, overview capture,
checkbox line, description line. -/
def parseStep (s : PState) (line : List Char) (n : Nat) : PState :=
  if s.title = [] && isTitleLine line then
    { s with title := titleValue line }
  else
    match promiseSearch line with
    | some g => { s with completionPromise := some (jsTrim g) }
    | none =>
      if isOverviewHeading line then { s with inOverview := true }
      else if isTasksHeading line then { s with inOverview := false }
      else if s.inOverview && !(jsTrim line).isEmpty then
        { s with overview := s.overview ++ (if s.overview.isEmpty then [] else ['\n']) ++ line }
      else
        match taskMatch line with
        | some (_, c, post) =>
          let ts := flushTasks s
          { s with
            tasks := ts,
            currentTask := some
              { id := taskIdStr (ts.length + 1),
                title := jsTrim (taskTitleRaw post),
                description := [],
                status := charStatus c,
                lineNumber := n },
            taskDescription := [] }
        | none =>
          if s.currentTask.isSome && isDescLine line then
            { s with taskDescription := s.taskDescription ++ [jsTrim line] }
          else s

/-- The whole loop, threading the 1-based line number. -/
def parseGo : PState → Nat → List (List Char) → PState
  | s, _, [] => s
  | s, n, l :: t => parseGo (parseStep s l n) (n + 1) t

/-- `parsePlanFile(content)` of src/index.ts lines 96–183 (identical in
src/plan.ts). -/
def parsePlanFile (content : List Char) : ParsedPlan :=
  let s := parseGo initPState 1 (splitLines content)
  { title := s.title,
    overview := s.overview,
    tasks := flushTasks s,
    completionPromise := s.completionPromise,
    rawContent := content }

/-- The `newStatus` argument of `updateTaskStatus`, typed
`"completed" | "pending"` in the source. -/
inductive NewStatus where
  | completed
  | pending
deriving DecidableEq, Repr

def NewStatus.toStatus : NewStatus → TaskStatus
  | .completed => .completed
  | .pending => .pending

/-- The single-line checkbox substitution of `updateTaskStatus`:
`line.replace(/\[\s\]/, "[x]")` for `completed`,
`line.replace(/\[[xX]\]/, "[ ]")` for `pending`. -/
def replaceLine : NewStatus → List Char → List Char
  | .completed, l => replaceBox jsWs 'x' l
  | .pending, l => replaceBox (fun c => c = 'x' || c = 'X') ' ' l

/-- `updateTaskStatus(content, taskId, tasks, newStatus)` of
src/index.ts lines 229–247.  The out-of-bounds line lookup (which would
crash in JS) is totalised with an empty-line default; the safety
invariant proved below shows it never occurs for parsed tasks. -/
def updateTaskStatus (content : List Char) (taskId : List Char)
    (tasks : List PlanTask) (newStatus : NewStatus) : List Char :=
  match tasks.find? (fun t => t.id == taskId) with
  | none => content
  | some task =>
    let lines := splitLines content
    let line := lines.getD (task.lineNumber - 1) []
    let updatedLine := replaceLine newStatus line
    joinLines (lines.set (task.lineNumber - 1) updatedLine)

/-! ## The promise detector (src/utils.ts / src/index.ts lines 70–76) -/

/-- Index of the first occurrence of `pat` as a contiguous sublist. -/
def findSub (pat : List Char) : List Char → Option Nat
  | [] => if pat.isEmpty then some 0 else none
  | l@(_ :: t) =>
    if pat.isPrefixOf l then some 0
    else (findSub pat t).map (· + 1)

/-- `extractPromiseText(text)`: match `/<promise>([\s\S]*?)<\/promise>/`,
then `match[1].trim().replace(/\s+/g, " ")`; `null` if no match. -/
def extractPromiseText (text : List Char) : Option (List Char) :=
  match findSub "<promise>".data text with
  | none => none
  | some i =>
    let rest := text.drop (i + "<promise>".length)
    match findSub "</promise>".data rest with
    | none => none
    | some j => some (collapseWs (jsTrim (rest.take j)))

example :
    parsePlanFile "# Plan\n## Tasks\n- [ ] Task 1\n- [ ] Task 2".data =
      { title := "Plan".data, overview := [],
        tasks := [
          { id := "task-1".data, title := "Task 1".data, description := [],
            status := .pending, lineNumber := 3 },
          { id := "task-2".data, title := "Task 2".data, description := [],
            status := .pending, lineNumber := 4 }],
        completionPromise := none,
        rawContent := "# Plan\n## Tasks\n- [ ] Task 1\n- [ ] Task 2".data } := by
  decide

example :
    (parsePlanFile "# Plan\ncompletion_promise: 'DONE'\n## Tasks\n- [x] **T**\n  desc here\n".data).tasks =
      [{ id := "task-1".data, title := "T".data, description := "desc here".data,
         status := .completed, lineNumber := 4 }] := by
  decide

example :
    (parsePlanFile "# Plan\ncompletion_promise: 'DONE'\n## Tasks\n- [ ] T".data).completionPromise
      = some "DONE".data := by decide

example :
    (parsePlanFile "# Plan\n## Overview\nThis is the overview.\nMore.\n\n## Tasks\n- [ ] T".data).overview
      = "This is the overview.\nMore.".data := by decide

example :
    updateTaskStatus "# Plan\n## Tasks\n- [ ] Task 1\n- [ ] Task 2".data "task-1".data
        (parsePlanFile "# Plan\n## Tasks\n- [ ] Task 1\n- [ ] Task 2".data).tasks .completed
      = "# Plan\n## Tasks\n- [x] Task 1\n- [ ] Task 2".data := by decide

example : extractPromiseText "Some text <promise>DONE</promise> more".data = some "DONE".data := by decide
example : extractPromiseText "<promise>ALL   TASKS\n\nDONE</promise>".data = some "ALL TASKS DONE".data := by decide
example : extractPromiseText "No promise tags here".data = none := by decide
example : extractPromiseText "<promise>FIRST</promise> text <promise>SECOND</promise>".data = some "FIRST".data := by decide
example : extractPromiseText "<promise></promise>".data = some [] := by decide

/-! ## Lemmas about line splitting and joining -/

theorem splitLines_ne_nil (l : List Char) : splitLines l ≠ [] := by
  induction l with
  | nil => simp [splitLines]
  | cons c t ih =>
    rw [splitLines]
    split
    · simp
    · rcases h : splitLines t with _ | ⟨h1, r⟩
      · exact absurd h ih
      · simp [h]

theorem not_newline_of_mem_splitLines {l x : List Char}
    (hx : x ∈ splitLines l) : '\n' ∉ x := by
  induction l generalizing x with
  | nil =>
    simp [splitLines] at hx
    simp [hx]
  | cons c t ih =>
    rw [splitLines] at hx
    split at hx
    · rcases List.mem_cons.1 hx with rfl | hx
      · simp
      · exact ih hx
    · rcases h : splitLines t with _ | ⟨h1, r⟩
      · exact absurd h (splitLines_ne_nil t)
      · rw [h] at hx
        rcases List.mem_cons.1 hx with rfl | hx
        · intro hmem
          rcases List.mem_cons.1 hmem with rfl | hmem
          · simp_all
          · exact ih (h ▸ List.mem_cons_self _ _) hmem
        · exact ih (h ▸ List.mem_cons_of_mem _ hx)

theorem joinLines_cons_of_ne_nil (a : List Char) {ls : List (List Char)}
    (h : ls ≠ []) : joinLines (a :: ls) = a ++ '\n' :: joinLines ls := by
  rcases ls with _ | ⟨b, r⟩
  · exact absurd rfl h
  · rfl

theorem joinLines_splitLines (l : List Char) : joinLines (splitLines l) = l := by
  induction l with
  | nil => rfl
  | cons c t ih =>
    rw [splitLines]
    split
    · rename_i hc
      rw [joinLines_cons_of_ne_nil _ (splitLines_ne_nil t), ih, hc]
      rfl
    · rcases h : splitLines t with _ | ⟨h1, r⟩
      · exact absurd h (splitLines_ne_nil t)
      · rw [h] at ih
        rcases r with _ | ⟨r1, r2⟩
        · simpa [joinLines] using congrArg (c :: ·) ih
        · rw [joinLines_cons_of_ne_nil _ (by simp)]
          rw [joinLines_cons_of_ne_nil _ (by simp)] at ih
          simpa using congrArg (c :: ·) ih

theorem splitLines_no_newline {a : List Char} (h : '\n' ∉ a) :
    splitLines a = [a] := by
  induction a with
  | nil => rfl
  | cons c t ih =>
    have hc : c ≠ '\n' := fun hc => h (hc ▸ List.mem_cons_self _ _)
    rw [splitLines, if_neg hc, ih (fun hm => h (List.mem_cons_of_mem _ hm))]

theorem splitLines_append_newline {a rest : List Char} (h : '\n' ∉ a) :
    splitLines (a ++ '\n' :: rest) = a :: splitLines rest := by
  induction a with
  | nil => simp [splitLines]
  | cons c t ih =>
    have hc : c ≠ '\n' := fun hc => h (hc ▸ List.mem_cons_self _ _)
    rw [List.cons_append, splitLines, if_neg hc,
      ih (fun hm => h (List.mem_cons_of_mem _ hm))]

theorem splitLines_joinLines {ls : List (List Char)} (hne : ls ≠ [])
    (hnl : ∀ x ∈ ls, '\n' ∉ x) : splitLines (joinLines ls) = ls := by
  induction ls with
  | nil => exact absurd rfl hne
  | cons a ls ih =>
    rcases ls with _ | ⟨b, r⟩
    · exact splitLines_no_newline (hnl a (List.mem_cons_self _ _))
    · rw [joinLines_cons_of_ne_nil _ (by simp),
        splitLines_append_newline (hnl a (List.mem_cons_self _ _)),
        ih (by simp) (fun x hx => hnl x (List.mem_cons_of_mem _ hx))]

/-! ## Lemmas about the checkbox substitution -/

theorem replaceBox_cons_ne (mid : Char → Bool) (r : Char) {a : Char} (L : List Char)
    (h : a ≠ '[') : replaceBox mid r (a :: L) = a :: replaceBox mid r L := by
  rw [replaceBox.eq_def]
  rcases L with _ | ⟨b, _ | ⟨c, L''⟩⟩ <;> simp_all

theorem countBox_cons_ne (mid : Char → Bool) {a : Char} (L : List Char)
    (h : a ≠ '[') : countBox mid (a :: L) = countBox mid L := by
  rw [countBox.eq_def]
  rcases L with _ | ⟨b, _ | ⟨c, L''⟩⟩ <;> simp_all

theorem replaceBox_box (mid : Char → Bool) (r : Char) {b : Char} (rest : List Char)
    (h : mid b = true) :
    replaceBox mid r ('[' :: b :: ']' :: rest) = '[' :: r :: ']' :: rest := by
  simp [replaceBox, h]

theorem replaceBox_bracket_skip (mid : Char → Bool) (r : Char) (L : List Char)
    (h : ∀ b rest2, L = b :: ']' :: rest2 → mid b = false) :
    replaceBox mid r ('[' :: L) = '[' :: replaceBox mid r L := by
  rw [replaceBox.eq_def]
  rcases L with _ | ⟨b, _ | ⟨c, L''⟩⟩
  · rfl
  · rfl
  · rcases eq_or_ne c ']' with rfl | hc
    · simp [h b L'' rfl]
    · simp_all

theorem countBox_bracket_skip (mid : Char → Bool) (L : List Char)
    (h : ∀ b rest2, L = b :: ']' :: rest2 → mid b = false) :
    countBox mid ('[' :: L) = countBox mid L := by
  rw [countBox.eq_def]
  rcases L with _ | ⟨b, _ | ⟨c, L''⟩⟩
  · rfl
  · rfl
  · rcases eq_or_ne c ']' with rfl | hc
    · simp [h b L'' rfl]
    · simp_all

theorem replaceBox_box_neg (mid : Char → Bool) (r : Char) {b : Char} (rest : List Char)
    (h : mid b = false) (hb : b ≠ '[') :
    replaceBox mid r ('[' :: b :: ']' :: rest) =
      '[' :: b :: ']' :: replaceBox mid r rest := by
  rw [replaceBox_bracket_skip mid r _ (by intro b' r' hb'; injection hb' with h1 h2; subst h1; exact h),
    replaceBox_cons_ne mid r _ hb, replaceBox_cons_ne mid r _ (by decide)]

theorem countBox_box (mid : Char → Bool) {b : Char} (rest : List Char)
    (h : mid b = true) :
    countBox mid ('[' :: b :: ']' :: rest) = 1 + countBox mid rest := by
  rw [countBox, if_pos h, countBox_cons_ne mid _ (by decide)]

theorem countBox_box_neg (mid : Char → Bool) {b : Char} (rest : List Char)
    (h : mid b = false) (hb : b ≠ '[') :
    countBox mid ('[' :: b :: ']' :: rest) = countBox mid rest := by
  rw [countBox_bracket_skip mid _ (by intro b' r' hb'; injection hb' with h1 h2; subst h1; exact h),
    countBox_cons_ne mid _ hb, countBox_cons_ne mid _ (by decide)]

theorem replaceBox_append_no_bracket (mid : Char → Bool) (r : Char)
    {pre : List Char} (rest : List Char) (h : ∀ a ∈ pre, a ≠ '[') :
    replaceBox mid r (pre ++ rest) = pre ++ replaceBox mid r rest := by
  induction pre with
  | nil => rfl
  | cons a pre ih =>
    rw [List.cons_append, replaceBox_cons_ne mid r _ (h a (List.mem_cons_self _ _)),
      ih (fun x hx => h x (List.mem_cons_of_mem _ hx)), List.cons_append]

theorem countBox_append_no_bracket (mid : Char → Bool)
    {pre : List Char} (rest : List Char) (h : ∀ a ∈ pre, a ≠ '[') :
    countBox mid (pre ++ rest) = countBox mid rest := by
  induction pre with
  | nil => rfl
  | cons a pre ih =>
    rw [List.cons_append, countBox_cons_ne mid _ (h a (List.mem_cons_self _ _)),
      ih (fun x hx => h x (List.mem_cons_of_mem _ hx))]

theorem replaceBox_of_countBox_zero (mid : Char → Bool) (r : Char) {l : List Char}
    (h : countBox mid l = 0) : replaceBox mid r l = l := by
  induction l with
  | nil => rfl
  | cons a L ih =>
    rcases eq_or_ne a '[' with rfl | ha
    · rcases L with _ | ⟨b, _ | ⟨c, L''⟩⟩
      · rfl
      · rcases eq_or_ne b '[' with rfl | hb
        · rfl
        · rw [replaceBox_bracket_skip mid r _
              (by intro b' r' hb'; exact absurd (congrArg List.length hb') (by simp)),
            replaceBox_cons_ne mid r _ hb]
          rfl
      · rcases eq_or_ne c ']' with rfl | hc
        · have hb : mid b = false := by
            by_contra hb
            rw [countBox, if_pos (by simpa using hb)] at h
            omega
          have hskip : ∀ b' rest2, b :: ']' :: L'' = b' :: ']' :: rest2 → mid b' = false := by
            intro b' r' hb'
            injection hb' with h1 h2
            subst h1
            exact hb
          rw [replaceBox_bracket_skip mid r _ hskip,
            ih (by rwa [countBox_bracket_skip mid _ hskip] at h)]
        · have hskip : ∀ b' rest2, b :: c :: L'' = b' :: ']' :: rest2 → mid b' = false := by
            intro b' r' hb'
            injection hb' with h1 h2
            injection h2 with h3 h4
            exact absurd h3 hc
          rw [replaceBox_bracket_skip mid r _ hskip,
            ih (by rwa [countBox_bracket_skip mid _ hskip] at h)]
    · rw [replaceBox_cons_ne mid r _ ha,
        ih (by rwa [countBox_cons_ne mid _ ha] at h)]

/-- Structure of a `replaceBox` run: either no occurrence (the list is
returned unchanged and the scan count is zero), or the list decomposes
around the first occurrence, whose middle character alone is replaced. -/
theorem replaceBox_spec (mid : Char → Bool) (r : Char) :
    ∀ L : List Char,
      (countBox mid L = 0 ∧ replaceBox mid r L = L) ∨
      ∃ u m v, L = u ++ '[' :: m :: ']' :: v ∧ mid m = true ∧
        replaceBox mid r L = u ++ '[' :: r :: ']' :: v := by
  intro L
  induction L with
  | nil => exact Or.inl ⟨rfl, rfl⟩
  | cons a L ih =>
    rcases eq_or_ne a '[' with rfl | ha
    · by_cases hbox : ∃ b rest2, L = b :: ']' :: rest2 ∧ mid b = true
      · rcases hbox with ⟨b, rest2, rfl, hb⟩
        exact Or.inr ⟨[], b, rest2, rfl, hb, replaceBox_box mid r _ hb⟩
      · have hskip : ∀ b rest2, L = b :: ']' :: rest2 → mid b = false := by
          intro b rest2 hL
          by_contra hb
          exact hbox ⟨b, rest2, hL, by simpa using hb⟩
        rcases ih with ⟨hc, he⟩ | ⟨u, m, v, rfl, hm, he⟩
        · exact Or.inl ⟨by rw [countBox_bracket_skip mid _ hskip, hc],
            by rw [replaceBox_bracket_skip mid r _ hskip, he]⟩
        · exact Or.inr ⟨'[' :: u, m, v, rfl, hm,
            by rw [replaceBox_bracket_skip mid r _ hskip, he]; rfl⟩
    · rcases ih with ⟨hc, he⟩ | ⟨u, m, v, rfl, hm, he⟩
      · exact Or.inl ⟨by rw [countBox_cons_ne mid _ ha, hc],
          by rw [replaceBox_cons_ne mid r _ ha, he]⟩
      · exact Or.inr ⟨a :: u, m, v, rfl, hm,
          by rw [replaceBox_cons_ne mid r _ ha, he]; rfl⟩

/-- Replacing the first occurrence decrements the scan count, provided
the replacement character cannot create a new occurrence. -/
theorem countBox_replaceBox (mid : Char → Bool) (r : Char)
    (hmr : mid r = false) (hr : r ≠ '[') (hbr : mid '[' = false) :
    ∀ L : List Char, 1 ≤ countBox mid L →
      countBox mid (replaceBox mid r L) = countBox mid L - 1 := by
  intro L
  induction L with
  | nil => intro h; simp [countBox] at h
  | cons a L ih =>
    intro hge
    rcases eq_or_ne a '[' with rfl | ha
    · by_cases hbox : ∃ b rest2, L = b :: ']' :: rest2 ∧ mid b = true
      · rcases hbox with ⟨b, rest2, rfl, hb⟩
        rw [replaceBox_box mid r _ hb, countBox_box_neg mid _ hmr hr,
          countBox_box mid _ hb]
        omega
      · have hskip : ∀ b rest2, L = b :: ']' :: rest2 → mid b = false := by
          intro b rest2 hL
          by_contra hb
          exact hbox ⟨b, rest2, hL, by simpa using hb⟩
        have hskip' : ∀ b rest2, replaceBox mid r L = b :: ']' :: rest2 → mid b = false := by
          intro b rest2 hL
          by_contra hb
          have hb' : mid b = true := by simpa using hb
          rcases replaceBox_spec mid r L with ⟨_, he⟩ | ⟨u, m, v, hdec, hm, he⟩
          · rw [he] at hL
            rw [hskip b rest2 hL] at hb'
            exact Bool.false_ne_true hb'
          · rw [he] at hL
            match u, hL with
            | [], hL =>
              injection hL with h1 _
              subst h1
              rw [hbr] at hb'
              exact Bool.false_ne_true hb'
            | [u0], hL =>
              injection hL with h1 h2
              injection h2 with h3 _
              exact absurd h3.symm (by decide)
            | u0 :: u1 :: u', hL =>
              injection hL with h1 h2
              injection h2 with h3 h4
              have hL2 : L = b :: ']' :: (u' ++ '[' :: m :: ']' :: v) := by
                rw [hdec, h1, h3]; rfl
              rw [hskip b _ hL2] at hb'
              exact Bool.false_ne_true hb'
        rw [replaceBox_bracket_skip mid r _ hskip,
          countBox_bracket_skip mid _ hskip',
          countBox_bracket_skip mid _ hskip]
        exact ih (by rwa [countBox_bracket_skip mid _ hskip] at hge)
    · rw [replaceBox_cons_ne mid r _ ha, countBox_cons_ne mid _ ha,
        countBox_cons_ne mid _ ha]
      exact ih (by rwa [countBox_cons_ne mid _ ha] at hge)

/-- The checkbox substitution is idempotent on lines with at most one
substitutable occurrence. -/
theorem replaceBox_idem (mid : Char → Bool) (r : Char)
    (hmr : mid r = false) (hr : r ≠ '[') (hbr : mid '[' = false)
    {l : List Char} (h : countBox mid l ≤ 1) :
    replaceBox mid r (replaceBox mid r l) = replaceBox mid r l := by
  rcases Nat.eq_zero_or_pos (countBox mid l) with hz | hp
  · rw [replaceBox_of_countBox_zero mid r hz, replaceBox_of_countBox_zero mid r hz]
  · have h1 : countBox mid l = 1 := le_antisymm h hp
    have : countBox mid (replaceBox mid r l) = 0 := by
      rw [countBox_replaceBox mid r hmr hr hbr l (by omega), h1]
    rw [replaceBox_of_countBox_zero mid r this]

/-- Characters of a substituted line are characters of the original line
or the replacement character. -/
theorem mem_replaceBox (mid : Char → Bool) (r : Char) {l : List Char} {x : Char}
    (hx : x ∈ replaceBox mid r l) : x ∈ l ∨ x = r := by
  rcases replaceBox_spec mid r l with ⟨_, he⟩ | ⟨u, m, v, hdec, _, he⟩
  · rw [he] at hx; exact Or.inl hx
  · rw [he] at hx
    rw [hdec]
    simp only [List.mem_append, List.mem_cons] at hx ⊢
    tauto

/-! ## Character-class lemmas -/

theorem char_le_iff (a b : Char) : a ≤ b ↔ a.toNat ≤ b.toNat := Iff.rfl

theorem char_toNat_inj {a b : Char} (h : a.toNat = b.toNat) : a = b :=
  Char.eq_of_val_eq (UInt32.ext h)

/-- The character class appearing before the checkbox of a task line. -/
def prePred (c : Char) : Bool :=
  c.isDigit || c = '.' || c = '-' || jsWs c

theorem jsWs_toNat {c : Char} (h : jsWs c = true) :
    c.toNat = 0x20 ∨ c.toNat = 0x09 ∨ c.toNat = 0x0a ∨ c.toNat = 0x0d ∨
    c.toNat = 0x0b ∨ c.toNat = 0x0c ∨ c.toNat = 0xa0 ∨ c.toNat = 0x1680 ∨
    (0x2000 ≤ c.toNat ∧ c.toNat ≤ 0x200a) ∨ c.toNat = 0x2028 ∨
    c.toNat = 0x2029 ∨ c.toNat = 0x202f ∨ c.toNat = 0x205f ∨
    c.toNat = 0x3000 ∨ c.toNat = 0xfeff := by
  simp only [jsWs, Bool.or_eq_true, beq_iff_eq, decide_eq_true_eq,
    Bool.and_eq_true] at h
  rcases h with ((((((((((((((h | h) | h) | h) | h) | h) | h) | h) | h) | h) | h) | h) | h) | h) | h) <;>
    first
      | (subst h; simp [Char.toNat])
      | simp [h]

theorem asciiLower_eq_self {c : Char} (h : c.toNat < 65 ∨ 90 < c.toNat) :
    asciiLower c = c := by
  rw [asciiLower, if_neg]
  simp only [Bool.and_eq_true, decide_eq_true_eq, char_le_iff, not_and]
  rw [show ('A').toNat = 65 from rfl, show ('Z').toNat = 90 from rfl]
  omega

theorem prePred_facts {c : Char} (h : prePred c = true) :
    c ≠ '[' ∧ c ≠ '#' ∧ asciiLower c ≠ 'c' := by
  simp only [prePred, Bool.or_eq_true, beq_iff_eq, decide_eq_true_eq] at h
  rcases h with ((h | h) | h) | h
  · have hd : 48 ≤ c.toNat ∧ c.toNat ≤ 57 := by
      simpa [Char.isDigit, char_le_iff, show ('0').toNat = 48 from rfl,
        show ('9').toNat = 57 from rfl] using h
    refine ⟨?_, ?_, ?_⟩
    · intro he; rw [he] at hd; exact absurd hd (by decide)
    · intro he; rw [he] at hd; exact absurd hd (by decide)
    · rw [asciiLower_eq_self (by omega)]
      intro he; rw [he] at hd; exact absurd hd (by decide)
  · subst h; exact ⟨by decide, by decide, by decide⟩
  · subst h; exact ⟨by decide, by decide, by decide⟩
  · have hn := jsWs_toNat h
    have hrange : (c.toNat < 65 ∨ 90 < c.toNat) ∧ c.toNat ≠ 0x5b ∧
        c.toNat ≠ 0x23 ∧ c.toNat ≠ 0x63 := by
      rcases hn with h | h | h | h | h | h | h | h | h | h | h | h | h | h | h <;> omega
    refine ⟨?_, ?_, ?_⟩
    · intro he
      exact hrange.2.1 (by rw [he]; rfl)
    · intro he
      exact hrange.2.2.1 (by rw [he]; rfl)
    · rw [asciiLower_eq_self hrange.1]
      intro he
      exact hrange.2.2.2 (by rw [he]; rfl)

/-! ## Shape of the checkbox-line prefix -/

theorem jsWs_not_digit {c : Char} (h : jsWs c = true) : c.isDigit = false := by
  have hn := jsWs_toNat h
  by_contra hd
  have hd' : c.isDigit = true := by simpa using hd
  have : 48 ≤ c.toNat ∧ c.toNat ≤ 57 := by
    simpa [Char.isDigit, char_le_iff, show ('0').toNat = 48 from rfl,
      show ('9').toNat = 57 from rfl] using hd'
  rcases hn with h | h | h | h | h | h | h | h | h | h | h | h | h | h | h <;> omega

theorem jsWs_ne_dash {c : Char} (h : jsWs c = true) : c ≠ '-' := by
  intro he
  rw [he] at h
  exact absurd h (by decide)

theorem takeWhile_all_append {p : Char → Bool} {w : List Char}
    (hw : ∀ a ∈ w, p a = true) {b : Char} (rest : List Char) (hb : p b = false) :
    (w ++ b :: rest).takeWhile p = w := by
  induction w with
  | nil => simp [List.takeWhile_cons, hb]
  | cons a w ih =>
    rw [List.cons_append, List.takeWhile_cons_of_pos (hw a (List.mem_cons_self _ _)),
      ih (fun x hx => hw x (List.mem_cons_of_mem _ hx))]

theorem drop_takeWhile_length (p : Char → Bool) (l : List Char) :
    l.drop (l.takeWhile p).length = l.dropWhile p := by
  conv_lhs =>
    rw [show l.drop (l.takeWhile p).length =
      (l.takeWhile p ++ l.dropWhile p).drop (l.takeWhile p).length from by
        rw [List.takeWhile_append_dropWhile]]
  rw [List.drop_left]

/-- Shape of the prefix consumed by `taskPre`: either the plain branch
`-?\s*` or the numbered branch `\d+\.\s+-?\s*`. -/
def PreShape (pre : List Char) : Prop :=
  (∃ dash w, (dash = [] ∨ dash = ['-']) ∧ (∀ a ∈ w, jsWs a = true) ∧ pre = dash ++ w) ∨
  (∃ ds w dash w2, ds ≠ [] ∧ (∀ a ∈ ds, a.isDigit = true) ∧ w ≠ [] ∧
    (∀ a ∈ w, jsWs a = true) ∧
    ((dash = ['-'] ∧ (∀ a ∈ w2, jsWs a = true)) ∨ (dash = [] ∧ w2 = [])) ∧
    pre = ds ++ '.' :: w ++ dash ++ w2)

theorem PreShape.all_prePred {pre : List Char} (h : PreShape pre) :
    ∀ a ∈ pre, prePred a = true := by
  rcases h with ⟨dash, w, hd, hw, rfl⟩ | ⟨ds, w, dash, w2, _, hds, _, hw, hd, rfl⟩
  · intro a ha
    rcases List.mem_append.1 ha with ha | ha
    · rcases hd with rfl | rfl
      · simp at ha
      · simp at ha
        simp [prePred, ha]
    · simp [prePred, hw a ha]
  · intro a ha
    simp only [List.append_assoc, List.mem_append, List.mem_cons] at ha
    rcases ha with ha | (rfl | ha) | ha
    · simp [prePred, hds a ha]
    · simp [prePred]
    · simp [prePred, hw a ha]
    · rcases hd with ⟨rfl, hw2⟩ | ⟨rfl, rfl⟩
      · rcases ha with ha | ha
        · simp at ha
          simp [prePred, ha]
        · simp [prePred, hw2 a ha]
      · simp at ha


theorem taskPrePlain_cons_ne {a : Char} {t : List Char} (ha : a ≠ '-') :
    taskPrePlain (a :: t) =
      (match (a :: t).drop ((a :: t).takeWhile jsWs).length with
       | '[' :: _ => some ((a :: t).takeWhile jsWs,
           (a :: t).drop ((a :: t).takeWhile jsWs).length)
       | _ => none) := by
  rw [taskPrePlain]
  · simp only [List.nil_append]
  · intro r heq
    injection heq with h1 _
    exact ha h1

theorem taskPrePlain_dash (t : List Char) :
    taskPrePlain ('-' :: t) =
      (match t.drop (t.takeWhile jsWs).length with
       | '[' :: _ => some ('-' :: t.takeWhile jsWs, t.drop (t.takeWhile jsWs).length)
       | _ => none) := by
  rw [taskPrePlain]
  split <;> rfl

/-- The plain branch `-?\s*\[` succeeds on `dash ++ w ++ '[' :: rest`. -/
theorem taskPrePlain_shape {dash w : List Char}
    (hd : dash = [] ∨ dash = ['-']) (hw : ∀ a ∈ w, jsWs a = true)
    (rest : List Char) :
    taskPrePlain ((dash ++ w) ++ '[' :: rest) = some (dash ++ w, '[' :: rest) := by
  have hww : w.takeWhile jsWs = w := by
    induction w with
    | nil => rfl
    | cons a w ih =>
      rw [List.takeWhile_cons_of_pos (hw a (List.mem_cons_self _ _)),
        ih (fun x hx => hw x (List.mem_cons_of_mem _ hx))]
  have htw : (w ++ '[' :: rest).takeWhile jsWs = w :=
    takeWhile_all_append hw rest (by decide)
  have hdrop : (w ++ '[' :: rest).drop w.length = '[' :: rest := List.drop_left w _
  rcases hd with rfl | rfl
  · rcases w with _ | ⟨a, w'⟩
    · rw [List.nil_append, List.nil_append, taskPrePlain_cons_ne (by decide)]
      simp [List.takeWhile_cons, show jsWs '[' = false from by decide]
    · have ha : jsWs a = true := hw a (List.mem_cons_self _ _)
      rw [List.nil_append, List.cons_append,
        taskPrePlain_cons_ne (jsWs_ne_dash ha), ← List.cons_append]
      rw [htw, hdrop]
      rfl
  · show taskPrePlain ('-' :: (w ++ '[' :: rest)) = some ('-' :: w, '[' :: rest)
    rw [taskPrePlain_dash, htw, hdrop]
    rfl

theorem takeWhile_digit_nil_of_preB {dash w : List Char}
    (hd : dash = [] ∨ dash = ['-']) (hw : ∀ a ∈ w, jsWs a = true)
    (rest : List Char) :
    ((dash ++ w) ++ '[' :: rest).takeWhile Char.isDigit = [] := by
  rcases hd with rfl | rfl
  · rcases w with _ | ⟨a, w'⟩
    · simp [List.takeWhile_cons]
    · rw [List.nil_append, List.cons_append,
        List.takeWhile_cons_of_neg (by simp [jsWs_not_digit (hw a (List.mem_cons_self _ _))])]
  · rw [List.cons_append, List.cons_append,
      List.takeWhile_cons_of_neg (by decide)]

theorem taskPre_of_no_digit {l : List Char}
    (h : l.takeWhile Char.isDigit = []) : taskPre l = taskPrePlain l := by
  rw [taskPre, h]
  rfl


theorem taskPre_digit {l ds r1 : List Char}
    (htake : l.takeWhile Char.isDigit = ds) (hne : ds.isEmpty = false)
    (hdrop : l.drop ds.length = '.' :: r1) :
    taskPre l = taskPreNum ds r1 l := by
  rw [taskPre, htake, hne, hdrop]
  rfl

theorem taskPreNumTail_eval {w2 : List Char} (hw2 : ∀ a ∈ w2, jsWs a = true)
    (ds w dash l rest : List Char) :
    taskPreNumTail ds w dash (w2 ++ '[' :: rest) l =
      some (ds ++ '.' :: w ++ dash ++ w2, '[' :: rest) := by
  rw [taskPreNumTail, takeWhile_all_append hw2 _ (by decide), List.drop_left w2 _]
  rfl

theorem taskPreNum_eval {w dash w2 : List Char}
    (hwne : w ≠ []) (hw : ∀ a ∈ w, jsWs a = true)
    (hd : (dash = ['-'] ∧ (∀ a ∈ w2, jsWs a = true)) ∨ (dash = [] ∧ w2 = []))
    (ds l rest : List Char) :
    taskPreNum ds (w ++ dash ++ w2 ++ '[' :: rest) l =
      some (ds ++ '.' :: w ++ dash ++ w2, '[' :: rest) := by
  have hwemp : w.isEmpty = false := by
    rcases w with _ | _
    · exact absurd rfl hwne
    · rfl
  rcases hd with ⟨rfl, hw2⟩ | ⟨rfl, rfl⟩
  · have hr1 : w ++ ['-'] ++ w2 ++ '[' :: rest = w ++ '-' :: (w2 ++ '[' :: rest) := by
      simp
    have htw : (w ++ '-' :: (w2 ++ '[' :: rest)).takeWhile jsWs = w :=
      takeWhile_all_append hw _ (by decide)
    have hdropw : (w ++ '-' :: (w2 ++ '[' :: rest)).drop w.length =
        '-' :: (w2 ++ '[' :: rest) := List.drop_left w _
    rw [hr1, taskPreNum, htw, hwemp]
    simp only [Bool.false_eq_true, if_false, hdropw]
    exact taskPreNumTail_eval hw2 ds w ['-'] l rest
  · have hr1 : w ++ ([] : List Char) ++ [] ++ '[' :: rest = w ++ '[' :: rest := by simp
    have htw : (w ++ '[' :: rest).takeWhile jsWs = w :=
      takeWhile_all_append hw _ (by decide)
    have hdropw : (w ++ '[' :: rest).drop w.length = '[' :: rest := List.drop_left w _
    rw [hr1, taskPreNum, htw, hwemp]
    simp only [Bool.false_eq_true, if_false, hdropw]
    have hw2nil : ∀ a ∈ ([] : List Char), jsWs a = true := by simp
    have := taskPreNumTail_eval hw2nil ds w [] l rest
    rw [List.nil_append] at this
    exact this

theorem takeWhile_dropWhile_nil (p : Char → Bool) (l : List Char) :
    (l.dropWhile p).takeWhile p = [] := by
  rcases h : l.dropWhile p with _ | ⟨c, t⟩
  · rfl
  · have := List.head?_dropWhile_not p l
    rw [h] at this
    simp at this
    simp [List.takeWhile, this]

theorem taskPre_complete {pre : List Char} (h : PreShape pre) (rest : List Char) :
    taskPre (pre ++ '[' :: rest) = some (pre, '[' :: rest) := by
  rcases h with ⟨dash, w, hd, hw, rfl⟩ | ⟨ds, w, dash, w2, hne, hds, hwne, hw, hd, rfl⟩
  · rw [taskPre_of_no_digit (takeWhile_digit_nil_of_preB hd hw rest),
      taskPrePlain_shape hd hw rest]
  · have hemp : ds.isEmpty = false := by
      rcases ds with _ | _
      · exact absurd rfl hne
      · rfl
    have h1 : (ds ++ '.' :: w ++ dash ++ w2) ++ '[' :: rest =
        ds ++ '.' :: (w ++ dash ++ w2 ++ '[' :: rest) := by
      simp [List.append_assoc]
    rw [h1, taskPre_digit (takeWhile_all_append hds _ (by decide)) hemp (List.drop_left ds _),
      taskPreNum_eval hwne hw hd ds _ rest]

theorem taskPrePlain_sound {l pre rest : List Char}
    (h : taskPrePlain l = some (pre, rest)) :
    l = pre ++ rest ∧ PreShape pre ∧ ∃ t, rest = '[' :: t := by
  rcases l with _ | ⟨a, t⟩
  · simp [taskPrePlain] at h
  · rcases eq_or_ne a '-' with rfl | ha
    · rw [taskPrePlain_dash] at h
      split at h
      · rename_i tail heq
        injection h with h'
        injection h' with h1 h2
        subst h1
        subst h2
        refine ⟨?_, ?_, ⟨tail, heq⟩⟩
        · conv_lhs => rw [show '-' :: t =
            '-' :: (t.takeWhile jsWs ++ t.dropWhile jsWs) from by
              rw [List.takeWhile_append_dropWhile]]
          rw [← drop_takeWhile_length jsWs t]
          rfl
        · exact Or.inl ⟨['-'], t.takeWhile jsWs, Or.inr rfl,
            fun x hx => List.mem_takeWhile_imp hx, rfl⟩
      · exact absurd h (by simp)
    · rw [taskPrePlain_cons_ne ha] at h
      split at h
      · rename_i tail heq
        injection h with h'
        injection h' with h1 h2
        subst h1
        subst h2
        refine ⟨?_, ?_, ⟨tail, heq⟩⟩
        · conv_lhs => rw [show a :: t =
            (a :: t).takeWhile jsWs ++ (a :: t).dropWhile jsWs from by
              rw [List.takeWhile_append_dropWhile]]
          rw [← drop_takeWhile_length jsWs (a :: t)]
        · exact Or.inl ⟨[], (a :: t).takeWhile jsWs, Or.inl rfl,
            fun x hx => List.mem_takeWhile_imp hx, rfl⟩
      · exact absurd h (by simp)

theorem taskPreNumTail_sound {ds w dash r3 l pre rest : List Char}
    (hl : l = ds ++ '.' :: (w ++ dash ++ r3))
    (hne : ds ≠ []) (hds : ∀ a ∈ ds, a.isDigit = true)
    (hwne : w ≠ []) (hw : ∀ a ∈ w, jsWs a = true)
    (hdash : dash = ['-'] ∨ (dash = [] ∧ r3.takeWhile jsWs = []))
    (h : taskPreNumTail ds w dash r3 l = some (pre, rest)) :
    l = pre ++ rest ∧ PreShape pre ∧ ∃ t, rest = '[' :: t := by
  rw [taskPreNumTail] at h
  split at h
  · rename_i tail heq
    injection h with h'
    injection h' with h1 h2
    subst h1
    subst h2
    have hr3 : r3 = r3.takeWhile jsWs ++ r3.drop (r3.takeWhile jsWs).length := by
      rw [drop_takeWhile_length, List.takeWhile_append_dropWhile]
    refine ⟨?_, ?_, ⟨tail, heq⟩⟩
    · rw [hl]
      conv_lhs => rw [hr3]
      simp [List.append_assoc]
    · refine Or.inr ⟨ds, w, dash, r3.takeWhile jsWs, hne, hds, hwne, hw, ?_, rfl⟩
      rcases hdash with rfl | ⟨rfl, hnil⟩
      · exact Or.inl ⟨rfl, fun x hx => List.mem_takeWhile_imp hx⟩
      · exact Or.inr ⟨rfl, hnil⟩
  · exact taskPrePlain_sound h

theorem taskPreNum_sound {l ds r1 pre rest : List Char}
    (htake : l.takeWhile Char.isDigit = ds) (hne : ds ≠ [])
    (hdrop : l.drop ds.length = '.' :: r1)
    (h : taskPreNum ds r1 l = some (pre, rest)) :
    l = pre ++ rest ∧ PreShape pre ∧ ∃ t, rest = '[' :: t := by
  have hl : l = ds ++ '.' :: r1 := by
    conv_lhs => rw [show l = l.takeWhile Char.isDigit ++ l.dropWhile Char.isDigit from by
      rw [List.takeWhile_append_dropWhile]]
    rw [htake, ← drop_takeWhile_length Char.isDigit l, htake, hdrop]
  have hds : ∀ a ∈ ds, a.isDigit = true := by
    intro a ha
    exact List.mem_takeWhile_imp (htake ▸ ha)
  rw [taskPreNum] at h
  split at h
  · exact taskPrePlain_sound h
  · rename_i hwne
    have hw : ∀ a ∈ r1.takeWhile jsWs, jsWs a = true :=
      fun x hx => List.mem_takeWhile_imp hx
    have hr1 : r1 = r1.takeWhile jsWs ++ r1.drop (r1.takeWhile jsWs).length := by
      rw [drop_takeWhile_length, List.takeWhile_append_dropWhile]
    have hwne' : r1.takeWhile jsWs ≠ [] := by
      intro he
      rw [he] at hwne
      exact hwne rfl
    split at h
    · rename_i r heq
      refine taskPreNumTail_sound ?_ hne hds hwne' hw (Or.inl rfl) h
      rw [hl]
      conv_lhs => rw [hr1, heq]
      simp
    · rename_i heq
      refine taskPreNumTail_sound ?_ hne hds hwne' hw
        (Or.inr ⟨rfl, by rw [drop_takeWhile_length]; exact takeWhile_dropWhile_nil jsWs r1⟩) h
      rw [hl]
      conv_lhs => rw [hr1]
      simp

theorem taskPre_sound {l pre rest : List Char}
    (h : taskPre l = some (pre, rest)) :
    l = pre ++ rest ∧ PreShape pre ∧ ∃ t, rest = '[' :: t := by
  rw [taskPre] at h
  split at h
  · exact taskPrePlain_sound h
  · rename_i hne
    split at h
    · rename_i r1 heq
      exact taskPreNum_sound rfl (by simpa using hne) heq h
    · exact taskPrePlain_sound h

theorem taskMatch_sound {l pre post : List Char} {c : Char}
    (h : taskMatch l = some (pre, c, post)) :
    l = pre ++ '[' :: c :: ']' :: post ∧ PreShape pre ∧
      (c = ' ' ∨ c = 'x' ∨ c = 'X') ∧ post ≠ [] := by
  rw [taskMatch] at h
  split at h
  · rename_i pre' c' post' heq
    split at h
    · rename_i hcond
      injection h with h'
      injection h' with h1 h2
      injection h2 with h2 h3
      subst h1
      subst h2
      subst h3
      simp only [Bool.and_eq_true, Bool.or_eq_true, decide_eq_true_eq,
        Bool.not_eq_true'] at hcond
      obtain ⟨⟨hl, hshape, _⟩⟩ := And.intro (taskPre_sound heq) trivial
      refine ⟨hl, hshape, ?_, ?_⟩
      · tauto
      · intro he
        rw [he] at hcond
        simp at hcond
    · exact absurd h (by simp)
  · exact absurd h (by simp)

theorem taskMatch_complete {pre : List Char} (hp : PreShape pre) {c : Char}
    (hc : c = ' ' ∨ c = 'x' ∨ c = 'X') {post : List Char} (hpost : post ≠ []) :
    taskMatch (pre ++ '[' :: c :: ']' :: post) = some (pre, c, post) := by
  rw [taskMatch, taskPre_complete hp]
  rcases post with _ | ⟨p0, pt⟩
  · exact absurd rfl hpost
  · rcases hc with rfl | rfl | rfl <;> rfl

/-! ## Line-classifier facts for checkbox lines -/

theorem isTitleLine_ne_hash {x : Char} (hx : x ≠ '#') (t : List Char) :
    isTitleLine (x :: t) = false := by
  rw [isTitleLine.eq_def]
  rcases t with _ | ⟨b, _ | ⟨d, t'⟩⟩ <;> simp_all

theorem isOverviewHeading_ne_hash {x : Char} (hx : x ≠ '#') (t : List Char) :
    isOverviewHeading (x :: t) = false := by
  rw [isOverviewHeading.eq_def]
  rcases t with _ | ⟨b, _ | ⟨d, t'⟩⟩ <;> simp_all

theorem isTasksHeading_ne_hash {x : Char} (hx : x ≠ '#') (t : List Char) :
    isTasksHeading (x :: t) = false := by
  rw [isTasksHeading.eq_def]
  rcases t with _ | ⟨b, _ | ⟨d, t'⟩⟩ <;> simp_all

theorem dropWhile_ne_nil_of_exists {p : Char → Bool} {l : List Char} {a : Char}
    (ha : a ∈ l) (hpa : p a = false) : l.dropWhile p ≠ [] := by
  induction l with
  | nil => simp at ha
  | cons b t ih =>
    rw [List.dropWhile_cons]
    rcases List.mem_cons.1 ha with rfl | hat
    · rw [hpa]
      simp
    · split
      · exact ih hat
      · simp

theorem jsTrim_ne_nil_of_mem {l : List Char} {a : Char}
    (ha : a ∈ l) (hpa : jsWs a = false) : jsTrim l ≠ [] := by
  rw [jsTrim]
  intro he
  have h1 : l.dropWhile jsWs ≠ [] := dropWhile_ne_nil_of_exists ha hpa
  have h2 : a ∈ l.dropWhile jsWs ∨ a ∈ l.takeWhile jsWs := by
    rcases List.mem_append.1 (by
      rw [List.takeWhile_append_dropWhile]
      exact ha : a ∈ l.takeWhile jsWs ++ l.dropWhile jsWs) with h | h
    · exact Or.inr h
    · exact Or.inl h
  have h3 : a ∈ l.dropWhile jsWs := by
    rcases h2 with h | h
    · exact h
    · have := List.mem_takeWhile_imp h
      rw [hpa] at this
      exact absurd this (by simp)
  have h4 : a ∈ (l.dropWhile jsWs).reverse := List.mem_reverse.2 h3
  have h5 : (l.dropWhile jsWs).reverse.dropWhile jsWs ≠ [] :=
    dropWhile_ne_nil_of_exists h4 hpa
  rw [List.reverse_eq_nil_iff] at he
  exact h5 he

/-! ## The promise search skips non-`c` positions -/

theorem promiseCore_fail {a : Char} (ha : asciiLower a ≠ 'c') (t : List Char) :
    promiseCore (a :: t) = none := by
  rw [promiseCore, show "completion".data = 'c' :: "ompletion".data from rfl,
    stripCI, if_neg ha]

theorem promiseSearch_cons_skip {a : Char} (ha : asciiLower a ≠ 'c') (t : List Char) :
    promiseSearch (a :: t) = promiseSearch t := by
  rw [promiseSearch, promiseCore_fail ha]

theorem promiseSearch_append_skip {pre : List Char}
    (hpre : ∀ a ∈ pre, asciiLower a ≠ 'c') (rest : List Char) :
    promiseSearch (pre ++ rest) = promiseSearch rest := by
  induction pre with
  | nil => rfl
  | cons a t ih =>
    rw [List.cons_append, promiseSearch_cons_skip (hpre a (List.mem_cons_self _ _)),
      ih (fun x hx => hpre x (List.mem_cons_of_mem _ hx))]

theorem promiseSearch_box_congr {pre post : List Char} {c c' : Char}
    (hpre : ∀ a ∈ pre, prePred a = true)
    (hc : c = ' ' ∨ c = 'x' ∨ c = 'X') (hc' : c' = ' ' ∨ c' = 'x' ∨ c' = 'X') :
    promiseSearch (pre ++ '[' :: c :: ']' :: post) =
      promiseSearch (pre ++ '[' :: c' :: ']' :: post) := by
  have hskip : ∀ a ∈ pre, asciiLower a ≠ 'c' :=
    fun a ha => (prePred_facts (hpre a ha)).2.2
  have hcs : ∀ d, (d = ' ' ∨ d = 'x' ∨ d = 'X') → asciiLower d ≠ 'c' := by
    intro d hd
    rcases hd with rfl | rfl | rfl <;> decide
  have hside : ∀ (d : Char), (d = ' ' ∨ d = 'x' ∨ d = 'X') →
      promiseSearch (pre ++ '[' :: d :: ']' :: post) = promiseSearch post := by
    intro d hd
    rw [promiseSearch_append_skip hskip,
      promiseSearch_cons_skip (show asciiLower '[' ≠ 'c' from by decide),
      promiseSearch_cons_skip (hcs d hd),
      promiseSearch_cons_skip (show asciiLower ']' ≠ 'c' from by decide)]
  rw [hside c hc, hside c' hc']

/-! ## The parse invariant -/

/-- The tasks recorded in a parse state: the flushed ones plus the open
one. -/
def stTasks (s : PState) : List PlanTask :=
  s.tasks ++ s.currentTask.toList

/-- Per-task facts recorded at creation time: the task's line (looked up
in the full line list) is a checkbox line, and status and title are the
ones computed from it. -/
def TaskFacts (allLines : List (List Char)) (t : PlanTask) : Prop :=
  ∃ pre c post, taskMatch (allLines.getD (t.lineNumber - 1) []) = some (pre, c, post) ∧
    t.status = charStatus c ∧ t.title = jsTrim (taskTitleRaw post)

/-- The invariant maintained by the parser loop before processing
(1-based) line `n`. -/
def ParseInv (allLines : List (List Char)) (n : Nat) (s : PState) : Prop :=
  s.tasks.map (·.id) = (List.range s.tasks.length).map (fun i => taskIdStr (i + 1)) ∧
  (∀ t, s.currentTask = some t → t.id = taskIdStr (s.tasks.length + 1)) ∧
  List.Pairwise (· < ·) ((stTasks s).map (·.lineNumber)) ∧
  (∀ t ∈ stTasks s, 1 ≤ t.lineNumber ∧ t.lineNumber < n) ∧
  (∀ t ∈ stTasks s, TaskFacts allLines t)

theorem stTasks_flush_map_ln (s : PState) :
    (flushTasks s).map (·.lineNumber) = (stTasks s).map (·.lineNumber) := by
  rcases hct : s.currentTask with _ | t
  · simp [flushTasks, stTasks, hct]
  · simp [flushTasks, stTasks, hct]

theorem mem_flushTasks {s : PState} {t : PlanTask} (h : t ∈ flushTasks s) :
    t ∈ s.tasks ∨ ∃ ct, s.currentTask = some ct ∧
      t = { ct with description := jsTrim (joinLines s.taskDescription) } := by
  rcases hct : s.currentTask with _ | ct
  · rw [flushTasks, hct] at h
    exact Or.inl h
  · rw [flushTasks, hct] at h
    rcases List.mem_append.1 h with h | h
    · exact Or.inl h
    · simp at h
      exact Or.inr ⟨ct, rfl, h⟩

theorem flushTasks_map_id (s : PState) :
    (flushTasks s).map (·.id) = (stTasks s).map (·.id) := by
  rcases hct : s.currentTask with _ | t
  · simp [flushTasks, stTasks, hct]
  · simp [flushTasks, stTasks, hct]

theorem flushTasks_length (s : PState) :
    (flushTasks s).length = s.tasks.length + s.currentTask.toList.length := by
  rcases hct : s.currentTask with _ | t
  · simp [flushTasks, hct]
  · simp [flushTasks, hct]

/-- Invariant preservation for steps that leave `tasks` and
`currentTask` unchanged. -/
theorem ParseInv_step_simple {allLines : List (List Char)} {n : Nat} {s s' : PState}
    (ht : s'.tasks = s.tasks) (hc : s'.currentTask = s.currentTask)
    (h : ParseInv allLines n s) : ParseInv allLines (n + 1) s' := by
  obtain ⟨h1, h2, h3, h4, h5⟩ := h
  have hst : stTasks s' = stTasks s := by rw [stTasks, ht, hc]; rfl
  refine ⟨by rw [ht]; exact h1, ?_, by rw [hst]; exact h3, ?_, ?_⟩
  · intro t hct
    rw [ht]
    exact h2 t (hc ▸ hct)
  · intro t htm
    obtain ⟨ha, hb⟩ := h4 t (hst ▸ htm)
    exact ⟨ha, by omega⟩
  · intro t htm
    exact h5 t (hst ▸ htm)

/-- The ids of the flushed list stay sequential, and the flushed length
is determined. -/
theorem flush_ids {allLines : List (List Char)} {n : Nat} {s : PState}
    (h : ParseInv allLines n s) :
    (flushTasks s).map (·.id) =
      (List.range (flushTasks s).length).map (fun i => taskIdStr (i + 1)) := by
  obtain ⟨h1, h2, _, _, _⟩ := h
  rw [flushTasks_map_id, flushTasks_length, stTasks]
  rcases hct : s.currentTask with _ | ct
  · simpa using h1
  · have hid := h2 ct hct
    rw [List.map_append, h1]
    simp [hid, List.range_succ]

/-- Invariant preservation for the checkbox branch of `parseStep`. -/
theorem ParseInv_step_task {allLines : List (List Char)} {n : Nat} {s : PState}
    {pre post : List Char} {c : Char}
    (hl : taskMatch (allLines.getD (n - 1) []) = some (pre, c, post)) (hn : 1 ≤ n)
    (h : ParseInv allLines n s) :
    ParseInv allLines (n + 1)
      { s with
        tasks := flushTasks s,
        currentTask := some
          { id := taskIdStr ((flushTasks s).length + 1),
            title := jsTrim (taskTitleRaw post),
            description := [],
            status := charStatus c,
            lineNumber := n },
        taskDescription := [] } := by
  obtain ⟨h1, h2, h3, h4, h5⟩ := h
  have hmapln : (flushTasks s).map (·.lineNumber) = (stTasks s).map (·.lineNumber) :=
    stTasks_flush_map_ln s
  refine ⟨flush_ids ⟨h1, h2, h3, h4, h5⟩, ?_, ?_, ?_, ?_⟩
  · intro t hct
    injection hct with hct
    rw [← hct]
  · rw [stTasks]
    simp only [Option.toList_some, List.map_append, List.map_cons, List.map_nil]
    rw [List.pairwise_append]
    refine ⟨hmapln ▸ h3, by simp, ?_⟩
    intro a ha b hb
    simp only [List.mem_singleton] at hb
    subst hb
    rw [hmapln] at ha
    rcases List.mem_map.1 ha with ⟨u, hu, rfl⟩
    exact (h4 u hu).2
  · intro t htm
    rw [stTasks] at htm
    rcases List.mem_append.1 htm with htm | htm
    · rcases mem_flushTasks htm with htm | ⟨ct, hct, rfl⟩
      · obtain ⟨ha, hb⟩ := h4 t (List.mem_append.2 (Or.inl htm))
        exact ⟨ha, by omega⟩
      · obtain ⟨ha, hb⟩ := h4 ct (by
          rw [stTasks, hct]
          simp)
        exact ⟨ha, by show ct.lineNumber < n + 1; omega⟩
    · simp at htm
      subst htm
      exact ⟨hn, by show n < n + 1; omega⟩
  · intro t htm
    rw [stTasks] at htm
    rcases List.mem_append.1 htm with htm | htm
    · rcases mem_flushTasks htm with htm | ⟨ct, hct, rfl⟩
      · exact h5 t (List.mem_append.2 (Or.inl htm))
      · exact h5 ct (by
          rw [stTasks, hct]
          simp)
    · simp at htm
      subst htm
      exact ⟨pre, c, post, hl, rfl, rfl⟩

/-- One step of the parser preserves the invariant. -/
theorem ParseInv_step {allLines : List (List Char)} {n : Nat} {s : PState} {l : List Char}
    (hl : allLines.getD (n - 1) [] = l) (hn : 1 ≤ n)
    (h : ParseInv allLines n s) : ParseInv allLines (n + 1) (parseStep s l n) := by
  rw [parseStep]
  split
  · exact ParseInv_step_simple rfl rfl h
  · split
    · exact ParseInv_step_simple rfl rfl h
    · split
      · exact ParseInv_step_simple rfl rfl h
      · split
        · exact ParseInv_step_simple rfl rfl h
        · split
          · exact ParseInv_step_simple rfl rfl h
          · split
            · rename_i heq
              exact ParseInv_step_task (hl ▸ heq) hn h
            · split
              · exact ParseInv_step_simple rfl rfl h
              · exact ParseInv_step_simple rfl rfl h

theorem getD_of_drop_cons {α : Type} {l : List α} {k : Nat} {a : α} {rest : List α}
    (h : l.drop k = a :: rest) (d : α) : l.getD k d = a := by
  induction l generalizing k with
  | nil => simp at h
  | cons b t ih =>
    cases k with
    | zero => injection h
    | succ k => exact ih (by simpa using h)

theorem drop_succ_of_drop_cons {α : Type} {l : List α} {k : Nat} {a : α} {rest : List α}
    (h : l.drop k = a :: rest) : l.drop (k + 1) = rest := by
  have h2 := congrArg (List.drop 1) h
  rw [List.drop_drop] at h2
  simpa [Nat.add_comm] using h2

theorem ParseInv_go {allLines : List (List Char)} {ls : List (List Char)}
    {n : Nat} {s : PState}
    (hdrop : allLines.drop (n - 1) = ls) (hn : 1 ≤ n)
    (h : ParseInv allLines n s) :
    ParseInv allLines (n + ls.length) (parseGo s n ls) := by
  induction ls generalizing n s with
  | nil => simpa using h
  | cons l ls ih =>
    have hk : n - 1 + 1 = n := by omega
    have hl : allLines.getD (n - 1) [] = l := getD_of_drop_cons hdrop []
    have hdrop' : allLines.drop ((n + 1) - 1) = ls := by
      have := drop_succ_of_drop_cons hdrop
      rw [hk] at this
      simpa using this
    have hstep := ParseInv_step hl hn h
    have := ih hdrop' (by omega) hstep
    rw [show n + (l :: ls).length = (n + 1) + ls.length from by simp; omega]
    exact this

/-- Master structural lemma for `parsePlanFile`: sequential ids, strictly
increasing line numbers, in-range line numbers, and per-task checkbox
facts. -/
theorem parse_master (content : List Char) :
    (parsePlanFile content).tasks.map (·.id) =
      (List.range (parsePlanFile content).tasks.length).map (fun i => taskIdStr (i + 1)) ∧
    List.Pairwise (· < ·) ((parsePlanFile content).tasks.map (·.lineNumber)) ∧
    (∀ t ∈ (parsePlanFile content).tasks,
      1 ≤ t.lineNumber ∧ t.lineNumber ≤ (splitLines content).length ∧
        TaskFacts (splitLines content) t) := by
  have hinit : ParseInv (splitLines content) 1 initPState := by
    refine ⟨rfl, ?_, ?_, ?_, ?_⟩
    · intro t hct
      simp [initPState] at hct
    · simp [stTasks, initPState]
    · intro t htm
      simp [stTasks, initPState] at htm
    · intro t htm
      simp [stTasks, initPState] at htm
  have hdrop0 : (splitLines content).drop (1 - 1) = splitLines content := by simp
  have hfin := ParseInv_go hdrop0 le_rfl hinit
  set sfin := parseGo initPState 1 (splitLines content) with hsfin
  have htasks : (parsePlanFile content).tasks = flushTasks sfin := rfl
  obtain ⟨h1, h2, h3, h4, h5⟩ := hfin
  refine ⟨?_, ?_, ?_⟩
  · rw [htasks]
    exact flush_ids ⟨h1, h2, h3, h4, h5⟩
  · rw [htasks, stTasks_flush_map_ln]
    exact h3
  · intro t htm
    rw [htasks] at htm
    rcases mem_flushTasks htm with htm | ⟨ct, hct, rfl⟩
    · have hmem : t ∈ stTasks sfin := List.mem_append.2 (Or.inl htm)
      obtain ⟨ha, hb⟩ := h4 t hmem
      exact ⟨ha, by omega, h5 t hmem⟩
    · have hmem : ct ∈ stTasks sfin := by
        rw [stTasks, hct]
        simp
      obtain ⟨ha, hb⟩ := h4 ct hmem
      exact ⟨ha, by show ct.lineNumber ≤ (splitLines content).length; omega, h5 ct hmem⟩

/-! ## Claims C9 and C10 -/

/-- C9: for every input string, the task list returned by
`parsePlanFile` has ids exactly `task-1` … `task-n` in array order (each
task's ordinal equals its array position + 1, contiguous from 1), and
the tasks' `lineNumber` values are strictly increasing in document
order. -/
theorem parsePlanFile_ids_and_lineNumbers (content : List Char) :
    (∀ i (h : i < (parsePlanFile content).tasks.length),
      ((parsePlanFile content).tasks.get ⟨i, h⟩).id = taskIdStr (i + 1)) ∧
    List.Pairwise (fun a b => a.lineNumber < b.lineNumber)
      (parsePlanFile content).tasks := by
  obtain ⟨hids, hln, _⟩ := parse_master content
  constructor
  · intro i h
    have hi : i < ((parsePlanFile content).tasks.map (·.id)).length := by simpa using h
    have e1 : ((parsePlanFile content).tasks.map (·.id)).get ⟨i, hi⟩ =
        ((parsePlanFile content).tasks.get ⟨i, h⟩).id := by simp
    have e2 : ((parsePlanFile content).tasks.map (·.id)).get ⟨i, hi⟩ =
        taskIdStr (i + 1) := by
      rw [List.get_eq_getElem, List.getElem_of_eq hids hi]
      simp
    rw [← e1, e2]
  · exact (List.pairwise_map).1 hln

def demoPlan : List Char := "# Plan\n## Tasks\n- [ ] Task A\n- [x] Task B".data

theorem parsePlanFile_ids_and_lineNumbers_witness :
    ((parsePlanFile demoPlan).tasks.get ⟨1, by decide⟩).id = taskIdStr 2 ∧
    List.Pairwise (fun a b => a.lineNumber < b.lineNumber)
      (parsePlanFile demoPlan).tasks :=
  ⟨(parsePlanFile_ids_and_lineNumbers demoPlan).1 1 (by decide),
   (parsePlanFile_ids_and_lineNumbers demoPlan).2⟩

/-- C10: every task produced by `parsePlanFile content` has
`1 ≤ lineNumber ≤ number of lines of content`, the line at that index
matches the checkbox pattern, and consequently the line lookup performed
by `updateTaskStatus` (index `lineNumber - 1` into the split line array)
is always in bounds. -/
theorem parsePlanFile_lineNumber_safe (content : List Char) :
    ∀ t ∈ (parsePlanFile content).tasks,
      1 ≤ t.lineNumber ∧ t.lineNumber ≤ (splitLines content).length ∧
      (taskMatch ((splitLines content).getD (t.lineNumber - 1) [])).isSome = true ∧
      t.lineNumber - 1 < (splitLines content).length := by
  intro t htm
  obtain ⟨_, _, hfacts⟩ := parse_master content
  obtain ⟨h1, h2, ⟨pre, c, post, hm, _, _⟩⟩ := hfacts t htm
  exact ⟨h1, h2, by rw [hm]; rfl, by omega⟩

theorem parsePlanFile_lineNumber_safe_witness :
    1 ≤ (3 : Nat) ∧ (3 : Nat) ≤ (splitLines demoPlan).length ∧
    (taskMatch ((splitLines demoPlan).getD (3 - 1) [])).isSome = true ∧
    (3 : Nat) - 1 < (splitLines demoPlan).length := by
  have h := parsePlanFile_lineNumber_safe demoPlan
    { id := "task-1".data, title := "Task A".data, description := [],
      status := .pending, lineNumber := 3 } (by decide)
  exact h

/-! ## Characterisation of `findSub` and claim C3 -/

theorem drop_append_add {α : Type} (l1 l2 : List α) (n : Nat) :
    (l1 ++ l2).drop (l1.length + n) = l2.drop n := by
  rw [← List.drop_drop, List.drop_left]

theorem findSub_prefix {pat l : List Char} {i : Nat}
    (h : findSub pat l = some i) : pat <+: l.drop i := by
  induction l generalizing i with
  | nil =>
    rw [findSub] at h
    split at h
    · injection h with h1
      subst h1
      rename_i hp
      simp [List.isEmpty_iff.1 hp]
    · exact absurd h (by simp)
  | cons x t ih =>
    rw [findSub] at h
    split at h
    · rename_i hp
      injection h with h1
      subst h1
      exact (List.isPrefixOf_iff_prefix).1 hp
    · rcases hmap : findSub pat t with _ | j
      · rw [hmap] at h
        exact absurd h (by simp)
      · rw [hmap] at h
        injection h with h1
        subst h1
        exact ih hmap

theorem findSub_none {pat l : List Char} (h : findSub pat l = none) :
    ∀ j, ¬ pat <+: l.drop j := by
  induction l with
  | nil =>
    rw [findSub] at h
    split at h
    · exact absurd h (by simp)
    · rename_i hp
      intro j hj
      rw [List.drop_nil] at hj
      rw [List.prefix_nil.1 hj] at hp
      simp at hp
  | cons x t ih =>
    rw [findSub] at h
    split at h
    · exact absurd h (by simp)
    · rename_i hp
      have hnone : findSub pat t = none := by
        rcases hmap : findSub pat t with _ | j
        · rfl
        · rw [hmap] at h
          simp at h
      intro j
      rcases j with _ | j
      · intro hj
        rw [List.drop_zero] at hj
        exact hp ((List.isPrefixOf_iff_prefix).2 hj)
      · exact ih hnone j

theorem findSub_of_first {pat l : List Char} {i : Nat}
    (hpat : pat ≠ []) (hp : pat <+: l.drop i)
    (hmin : ∀ j < i, ¬ pat <+: l.drop j) : findSub pat l = some i := by
  induction l generalizing i with
  | nil =>
    rw [List.drop_nil] at hp
    exact absurd (List.prefix_nil.1 hp) hpat
  | cons x t ih =>
    rw [findSub]
    split
    · rename_i hpre
      rcases Nat.eq_zero_or_pos i with rfl | hpos
      · rfl
      · exact absurd (by
          rw [List.drop_zero]
          exact (List.isPrefixOf_iff_prefix).1 hpre) (hmin 0 hpos)
    · rename_i hpre
      rcases Nat.eq_zero_or_pos i with rfl | hpos
      · rw [List.drop_zero] at hp
        exact absurd ((List.isPrefixOf_iff_prefix).2 hp) hpre
      · obtain ⟨i', rfl⟩ : ∃ i', i = i' + 1 := ⟨i - 1, by omega⟩
        rw [ih (by simpa using hp) (fun j hj => by simpa using hmin (j + 1) (by omega))]
        rfl

theorem findSub_min {pat l : List Char} {i : Nat}
    (h : findSub pat l = some i) : ∀ j < i, ¬ pat <+: l.drop j := by
  induction l generalizing i with
  | nil =>
    rw [findSub] at h
    split at h
    · injection h with h1
      subst h1
      omega
    · exact absurd h (by simp)
  | cons x t ih =>
    rw [findSub] at h
    split at h
    · injection h with h1
      subst h1
      omega
    · rename_i hpre
      rcases hmap : findSub pat t with _ | i'
      · rw [hmap] at h
        exact absurd h (by simp)
      · rw [hmap] at h
        injection h with h1
        subst h1
        intro j hj
        rcases j with _ | j
        · intro hp
          rw [List.drop_zero] at hp
          exact hpre ((List.isPrefixOf_iff_prefix).2 hp)
        · exact ih hmap j (by simp at hj; omega)

theorem extractPromiseText_eq {t : List Char} {i j : Nat}
    (hfO : findSub "<promise>".data t = some i)
    (hfC : findSub "</promise>".data (t.drop (i + "<promise>".length)) = some j) :
    extractPromiseText t =
      some (collapseWs (jsTrim ((t.drop (i + "<promise>".length)).take j))) := by
  rw [extractPromiseText]
  simp only [hfO]
  simp only [hfC]

theorem extractPromiseText_eq_none_left {t : List Char}
    (hfO : findSub "<promise>".data t = none) : extractPromiseText t = none := by
  rw [extractPromiseText]
  simp only [hfO]

theorem extractPromiseText_eq_none_right {t : List Char} {i : Nat}
    (hfO : findSub "<promise>".data t = some i)
    (hfC : findSub "</promise>".data (t.drop (i + "<promise>".length)) = none) :
    extractPromiseText t = none := by
  rw [extractPromiseText]
  simp only [hfO]
  simp only [hfC]

/-- C3: `extractPromiseText` returns `null` exactly when the text has no
literal `<promise>…</promise>` span; and when the text decomposes around
the first opening tag and the first closing tag after it, the result is
the inner text trimmed with every internal whitespace run collapsed to a
single space — any later spans (inside the trailing part `c`) are
ignored. -/
theorem extractPromiseText_correct (t : List Char) :
    (extractPromiseText t = none ↔
      ¬ ∃ a b c, t = a ++ "<promise>".data ++ b ++ "</promise>".data ++ c) ∧
    (∀ a b c, t = a ++ "<promise>".data ++ b ++ "</promise>".data ++ c →
      (∀ j < a.length, ¬ ("<promise>".data <+: t.drop j)) →
      (∀ j < b.length, ¬ ("</promise>".data <+: (b ++ "</promise>".data ++ c).drop j)) →
      extractPromiseText t = some (collapseWs (jsTrim b))) := by
  have hol : "<promise>".length = "<promise>".data.length := rfl
  constructor
  · constructor
    · intro hnone hex
      obtain ⟨a, b, c, rfl⟩ := hex
      set T := a ++ "<promise>".data ++ b ++ "</promise>".data ++ c with hT
      have hO : "<promise>".data <+: T.drop a.length := by
        rw [hT, List.append_assoc, List.append_assoc, List.append_assoc] at *
        rw [List.drop_left]
        exact ⟨_, rfl⟩
      rcases hfO : findSub "<promise>".data T with _ | i
      · exact findSub_none hfO a.length hO
      · have hle : i ≤ a.length := by
          by_contra hlt
          exact findSub_min hfO a.length (by omega) hO
        have hC : "</promise>".data <+:
            (T.drop (i + "<promise>".length)).drop (a.length + b.length - i) := by
          rw [List.drop_drop]
          have hlen : i + "<promise>".length + (a.length + b.length - i) =
              (a ++ "<promise>".data ++ b).length := by
            rw [hol]
            simp only [List.length_append]
            have h9 : "<promise>".data.length = 9 := rfl
            omega
          rw [hlen]
          have hT2 : T = (a ++ "<promise>".data ++ b) ++ ("</promise>".data ++ c) := by
            rw [hT]
            simp [List.append_assoc]
          rw [hT2, List.drop_left]
          exact ⟨_, rfl⟩
        rcases hfC : findSub "</promise>".data (T.drop (i + "<promise>".length)) with _ | j
        · exact findSub_none hfC _ hC
        · rw [extractPromiseText_eq hfO hfC] at hnone
          exact absurd hnone (by simp)
    · intro hnex
      rcases hfO : findSub "<promise>".data t with _ | i
      · exact extractPromiseText_eq_none_left hfO
      · rcases hfC : findSub "</promise>".data (t.drop (i + "<promise>".length)) with _ | j
        · exact extractPromiseText_eq_none_right hfO hfC
        · exfalso
          obtain ⟨s, hs⟩ := findSub_prefix hfO
          obtain ⟨s', hs'⟩ := findSub_prefix hfC
          have hsdrop : t.drop (i + "<promise>".length) = s := by
            rw [hol, ← List.drop_drop, ← hs, List.drop_left]
          rw [hsdrop] at hs'
          apply hnex
          refine ⟨t.take i, s.take j, s', ?_⟩
          conv_lhs => rw [← List.take_append_drop i t, ← hs,
            ← List.take_append_drop j s, ← hs']
          simp [List.append_assoc]
  · intro a b c h hfirstO hfirstC
    subst h
    set T := a ++ "<promise>".data ++ b ++ "</promise>".data ++ c with hT
    have hO : "<promise>".data <+: T.drop a.length := by
      rw [hT, List.append_assoc, List.append_assoc, List.append_assoc] at *
      rw [List.drop_left]
      exact ⟨_, rfl⟩
    have hfO' : findSub "<promise>".data T = some a.length :=
      findSub_of_first (by decide) hO hfirstO
    have hrest : T.drop (a.length + "<promise>".length) = b ++ "</promise>".data ++ c := by
      have hT2 : T = (a ++ "<promise>".data) ++ (b ++ "</promise>".data ++ c) := by
        rw [hT]
        simp [List.append_assoc]
      have hlen : a.length + "<promise>".length = (a ++ "<promise>".data).length := by
        rw [hol]
        simp
      rw [hT2, hlen, List.drop_left]
    have hC' : "</promise>".data <+: (T.drop (a.length + "<promise>".length)).drop b.length := by
      rw [hrest, List.append_assoc, List.drop_left]
      exact ⟨_, rfl⟩
    have hmin' : ∀ j < b.length,
        ¬ ("</promise>".data <+: (T.drop (a.length + "<promise>".length)).drop j) := by
      intro j hj
      rw [hrest]
      exact hfirstC j hj
    have hfC' : findSub "</promise>".data (T.drop (a.length + "<promise>".length)) =
        some b.length := findSub_of_first (by decide) hC' hmin'
    rw [extractPromiseText_eq hfO' hfC', hrest, List.append_assoc, List.take_left]

theorem extractPromiseText_correct_witness :
    extractPromiseText "x <promise>  A   B </promise> y".data =
      some (collapseWs (jsTrim "  A   B ".data)) :=
  (extractPromiseText_correct "x <promise>  A   B </promise> y".data).2
    "x ".data "  A   B ".data " y".data (by decide) (by decide) (by decide)

example : extractPromiseText "x <promise>  A   B </promise> y".data = some "A B".data := by decide

/-! ## Facts about `updateTaskStatus` -/

/-- The admissible middle characters and the replacement character of the
two substitutions of `updateTaskStatus`. -/
def boxMid : NewStatus → Char → Bool
  | .completed => jsWs
  | .pending => fun c => c = 'x' || c = 'X'

def boxRep : NewStatus → Char
  | .completed => 'x'
  | .pending => ' '

theorem replaceLine_eq (ns : NewStatus) (l : List Char) :
    replaceLine ns l = replaceBox (boxMid ns) (boxRep ns) l := by
  cases ns <;> rfl

theorem boxMid_rep (ns : NewStatus) : boxMid ns (boxRep ns) = false := by
  cases ns <;> decide

theorem boxRep_ne_bracket (ns : NewStatus) : boxRep ns ≠ '[' := by
  cases ns <;> decide

theorem boxMid_bracket (ns : NewStatus) : boxMid ns '[' = false := by
  cases ns <;> decide

theorem boxRep_ne_newline (ns : NewStatus) : boxRep ns ≠ '\n' := by
  cases ns <;> decide

theorem replaceLine_no_newline (ns : NewStatus) {l : List Char}
    (h : '\n' ∉ l) : '\n' ∉ replaceLine ns l := by
  rw [replaceLine_eq]
  intro hm
  rcases mem_replaceBox _ _ hm with hm | hm
  · exact h hm
  · exact boxRep_ne_newline ns hm.symm

theorem getD_set_ne {α : Type} (l : List α) (i j : Nat) (a d : α) (h : i ≠ j) :
    (l.set i a).getD j d = l.getD j d := by
  rw [List.getD_eq_getElem?_getD, List.getD_eq_getElem?_getD, List.getElem?_set_ne h]

/-- Splitting the output of `updateTaskStatus` recovers the input lines
with only the targeted index substituted. -/
theorem updateTaskStatus_lines (content tid : List Char) (ns : NewStatus)
    (task : PlanTask) {tasks : List PlanTask}
    (hfind : tasks.find? (fun t => t.id == tid) = some task) :
    splitLines (updateTaskStatus content tid tasks ns) =
      (splitLines content).set (task.lineNumber - 1)
        (replaceLine ns ((splitLines content).getD (task.lineNumber - 1) [])) := by
  rw [updateTaskStatus, hfind]
  apply splitLines_joinLines
  · intro he
    have := congrArg List.length he
    simp only [List.length_set, List.length_nil] at this
    exact splitLines_ne_nil content (List.length_eq_zero.1 this)
  · intro x hx
    rcases List.mem_or_eq_of_mem_set hx with hx | rfl
    · exact not_newline_of_mem_splitLines hx
    · apply replaceLine_no_newline
      rw [List.getD_eq_getElem?_getD]
      rcases hg : (splitLines content)[task.lineNumber - 1]? with _ | line
      · simp
      · simp only [Option.getD_some]
        exact not_newline_of_mem_splitLines (List.getElem?_mem hg)

/-! ## Claim C6 -/

/-- C6 counterexample: with the task id present and target status
`completed`, marking an already-completed task changes no line at all,
so the output does not differ from the input "in exactly one line". -/
theorem updateTaskStatus_changes_no_line :
    (parsePlanFile "- [x] Task".data).tasks.find?
        (fun t => t.id == "task-1".data) ≠ none ∧
    updateTaskStatus "- [x] Task".data "task-1".data
        (parsePlanFile "- [x] Task".data).tasks .completed = "- [x] Task".data := by
  decide

/-- C6 (amended): `updateTaskStatus` changes at most one line — the
targeted task's checkbox line, by the single-occurrence checkbox
substitution — and every other line of the output is byte-identical to
the corresponding input line. -/
theorem updateTaskStatus_locality (content tid : List Char) (ns : NewStatus)
    (task : PlanTask)
    (hfind : (parsePlanFile content).tasks.find? (fun t => t.id == tid) = some task) :
    splitLines (updateTaskStatus content tid (parsePlanFile content).tasks ns) =
      (splitLines content).set (task.lineNumber - 1)
        (replaceLine ns ((splitLines content).getD (task.lineNumber - 1) [])) ∧
    (splitLines (updateTaskStatus content tid (parsePlanFile content).tasks ns)).length =
      (splitLines content).length ∧
    ∀ j, j ≠ task.lineNumber - 1 →
      (splitLines (updateTaskStatus content tid (parsePlanFile content).tasks ns)).getD j [] =
        (splitLines content).getD j [] := by
  have hlines := updateTaskStatus_lines content tid ns task hfind
  refine ⟨hlines, ?_, ?_⟩
  · rw [hlines, List.length_set]
  · intro j hj
    rw [hlines, getD_set_ne _ _ _ _ _ (fun he => hj he.symm)]

theorem updateTaskStatus_locality_witness :
    splitLines (updateTaskStatus demoPlan "task-1".data (parsePlanFile demoPlan).tasks .completed) =
      (splitLines demoPlan).set 2
        (replaceLine .completed ((splitLines demoPlan).getD 2 [])) ∧
    (splitLines (updateTaskStatus demoPlan "task-1".data (parsePlanFile demoPlan).tasks .completed)).length =
      (splitLines demoPlan).length ∧
    ∀ j, j ≠ 2 →
      (splitLines (updateTaskStatus demoPlan "task-1".data (parsePlanFile demoPlan).tasks .completed)).getD j [] =
        (splitLines demoPlan).getD j [] :=
  updateTaskStatus_locality demoPlan "task-1".data .completed
    { id := "task-1".data, title := "Task A".data, description := [],
      status := .pending, lineNumber := 3 } (by decide)

/-! ## Claim C7 -/

/-- C7 counterexample: on a pending task whose title itself contains a
checkbox-like token, applying the mutation twice with the same arguments
does not equal applying it once — the second application corrupts the
title. -/
theorem updateTaskStatus_not_idempotent :
    (parsePlanFile "- [ ] a [ ] b".data).tasks.find?
        (fun t => t.id == "task-1".data) ≠ none ∧
    updateTaskStatus
        (updateTaskStatus "- [ ] a [ ] b".data "task-1".data
          (parsePlanFile "- [ ] a [ ] b".data).tasks .completed)
        "task-1".data (parsePlanFile "- [ ] a [ ] b".data).tasks .completed ≠
      updateTaskStatus "- [ ] a [ ] b".data "task-1".data
        (parsePlanFile "- [ ] a [ ] b".data).tasks .completed := by
  decide

/-- C7 (amended): applying `updateTaskStatus` twice with the same
arguments equals applying it once, provided the targeted task's checkbox
line carries at most one substitutable checkbox token (for `completed` a
`[<ws>]` token, for `pending` a `[x]`/`[X]` token). -/
theorem updateTaskStatus_idempotent (content tid : List Char) (ns : NewStatus)
    (task : PlanTask)
    (hfind : (parsePlanFile content).tasks.find? (fun t => t.id == tid) = some task)
    (hcount : countBox (boxMid ns) ((splitLines content).getD (task.lineNumber - 1) []) ≤ 1) :
    updateTaskStatus (updateTaskStatus content tid (parsePlanFile content).tasks ns)
        tid (parsePlanFile content).tasks ns =
      updateTaskStatus content tid (parsePlanFile content).tasks ns := by
  have htask : task ∈ (parsePlanFile content).tasks := List.mem_of_find?_eq_some hfind
  obtain ⟨_, _, hfacts⟩ := parse_master content
  obtain ⟨hge, hle, _⟩ := hfacts task htask
  have hidx : task.lineNumber - 1 < (splitLines content).length := by omega
  have hlines := updateTaskStatus_lines content tid ns task hfind
  set lines := splitLines content with hlinesdef
  set idx := task.lineNumber - 1 with hidxdef
  set line := lines.getD idx [] with hlinedef
  set lineR := replaceLine ns line with hlineRdef
  have hgd : (lines.set idx lineR).getD idx [] = lineR := by
    rw [List.getD_eq_getElem?_getD, List.getElem?_set_self]
    · rfl
    · exact hidx
  have hrepl : replaceLine ns lineR = lineR := by
    rw [hlineRdef, replaceLine_eq, replaceLine_eq]
    exact replaceBox_idem (boxMid ns) (boxRep ns) (boxMid_rep ns)
      (boxRep_ne_bracket ns) (boxMid_bracket ns) hcount
  conv_lhs => rw [updateTaskStatus, hfind]
  simp only [hlines, ← hidxdef, hgd, hrepl, List.set_set]
  conv_rhs => rw [updateTaskStatus, hfind]

theorem updateTaskStatus_idempotent_witness :
    countBox (boxMid .completed) ((splitLines demoPlan).getD 2 []) ≤ 1 ∧
    updateTaskStatus (updateTaskStatus demoPlan "task-1".data (parsePlanFile demoPlan).tasks .completed)
        "task-1".data (parsePlanFile demoPlan).tasks .completed =
      updateTaskStatus demoPlan "task-1".data (parsePlanFile demoPlan).tasks .completed :=
  ⟨by decide,
    updateTaskStatus_idempotent demoPlan "task-1".data .completed
      { id := "task-1".data, title := "Task A".data, description := [],
        status := .pending, lineNumber := 3 } (by decide) (by decide)⟩

/-! ## Claim C2 -/

theorem taskMatch_head_facts {l : List Char} (h : (taskMatch l).isSome) :
    (∃ x t, l = x :: t ∧ x ≠ '#') ∧ '[' ∈ l := by
  obtain ⟨⟨pre, c, post⟩, heq⟩ := Option.isSome_iff_exists.1 h
  obtain ⟨hl, hshape, _, _⟩ := taskMatch_sound heq
  subst hl
  rcases pre with _ | ⟨a, pt⟩
  · exact ⟨⟨'[', c :: ']' :: post, rfl, by decide⟩, by simp⟩
  · have ha : prePred a = true := hshape.all_prePred a (by simp)
    obtain ⟨_, ha2, _⟩ := prePred_facts ha
    exact ⟨⟨a, pt ++ '[' :: c :: ']' :: post, rfl, ha2⟩, by simp⟩

/-- C2 counterexample: a checkbox line sitting between `## Overview` and
`## Tasks` is consumed as overview text and produces no task — overview
capture takes precedence over checkbox detection, not the reverse. -/
theorem parsePlanFile_overview_captures_checkbox :
    (taskMatch "- [ ] T".data).isSome ∧
    (parsePlanFile "## Overview\n- [ ] T\n## Tasks".data).tasks = [] ∧
    (parsePlanFile "## Overview\n- [ ] T\n## Tasks".data).overview = "- [ ] T".data := by
  decide

/-- C2 (amended): while overview-mode is open, a checkbox line that
contains no promise span is appended to the overview text, and neither
the accumulated task list nor the in-progress task changes — the
overview-capture branch precedes the checkbox branch. -/
theorem parseStep_overview_precedence (s : PState) (line : List Char) (n : Nat)
    (hov : s.inOverview = true)
    (htask : (taskMatch line).isSome)
    (hpr : promiseSearch line = none) :
    parseStep s line n =
      { s with overview :=
          s.overview ++ (if s.overview.isEmpty then [] else ['\n']) ++ line } ∧
    (parseStep s line n).tasks = s.tasks ∧
    (parseStep s line n).currentTask = s.currentTask := by
  obtain ⟨⟨x, t, rfl, hx⟩, hbr⟩ := taskMatch_head_facts htask
  have hne : jsTrim (x :: t) ≠ [] := jsTrim_ne_nil_of_mem hbr (by decide)
  have hempty : (jsTrim (x :: t)).isEmpty = false := by
    simpa [List.isEmpty_iff] using hne
  have hstep : parseStep s (x :: t) n =
      { s with overview :=
          s.overview ++ (if s.overview.isEmpty then [] else ['\n']) ++ (x :: t) } := by
    rw [parseStep]
    simp only [isTitleLine_ne_hash hx, Bool.and_false, if_false, hpr,
      isOverviewHeading_ne_hash hx, isTasksHeading_ne_hash hx, hov, hempty,
      Bool.not_false, Bool.and_self, if_true, Bool.false_eq_true]
  exact ⟨hstep, by rw [hstep], by rw [hstep]⟩

theorem parseStep_overview_precedence_witness :
    ({ initPState with inOverview := true } : PState).inOverview = true ∧
    (taskMatch "- [ ] T".data).isSome ∧
    promiseSearch "- [ ] T".data = none ∧
    parseStep { initPState with inOverview := true } "- [ ] T".data 2 =
      { initPState with inOverview := true, overview := "- [ ] T".data } := by
  refine ⟨rfl, by decide, by decide, ?_⟩
  have h := (parseStep_overview_precedence { initPState with inOverview := true }
    "- [ ] T".data 2 rfl (by decide) (by decide)).1
  simpa [initPState] using h

/-! ## Claim C1: replay machinery -/

theorem parseGo_append (s : PState) (n : Nat) (l1 l2 : List (List Char)) :
    parseGo s n (l1 ++ l2) = parseGo (parseGo s n l1) (n + l1.length) l2 := by
  induction l1 generalizing s n with
  | nil => simp [parseGo]
  | cons a t ih =>
    rw [List.cons_append, parseGo, parseGo, ih]
    congr 1
    simp
    omega

/-- `ParseInv_go` against a prefix of the remaining lines. -/
theorem ParseInv_go_prefix {allLines ls rest : List (List Char)}
    {n : Nat} {s : PState}
    (hdrop : allLines.drop (n - 1) = ls ++ rest) (hn : 1 ≤ n)
    (h : ParseInv allLines n s) :
    ParseInv allLines (n + ls.length) (parseGo s n ls) := by
  induction ls generalizing n s with
  | nil => simpa using h
  | cons l ls ih =>
    have hk : n - 1 + 1 = n := by omega
    have hl : allLines.getD (n - 1) [] = l := getD_of_drop_cons hdrop []
    have hdrop' : allLines.drop ((n + 1) - 1) = ls ++ rest := by
      have := drop_succ_of_drop_cons hdrop
      rw [hk] at this
      simpa using this
    have hstep := ParseInv_step hl hn h
    have := ih hdrop' (by omega) hstep
    rw [show n + (l :: ls).length = (n + 1) + ls.length from by simp; omega]
    exact this

/-- Explicit evaluation of `parseStep` when the checkbox branch fires. -/
theorem parseStep_task_eval {s : PState} {l : List Char} (n : Nat)
    {pre post : List Char} {c : Char}
    (h1 : ¬(s.title = [] ∧ isTitleLine l = true))
    (h2 : promiseSearch l = none)
    (h3 : isOverviewHeading l = false) (h4 : isTasksHeading l = false)
    (h5 : s.inOverview = false ∨ (jsTrim l).isEmpty = true)
    (h6 : taskMatch l = some (pre, c, post)) :
    parseStep s l n =
      { s with
        tasks := flushTasks s,
        currentTask := some
          { id := taskIdStr ((flushTasks s).length + 1),
            title := jsTrim (taskTitleRaw post),
            description := [],
            status := charStatus c,
            lineNumber := n },
        taskDescription := [] } := by
  have hb1 : (decide (s.title = []) && isTitleLine l) = false := by
    rcases Bool.eq_false_or_eq_true (isTitleLine l) with h | h
    · rcases Bool.eq_false_or_eq_true (decide (s.title = [])) with h' | h'
      · exact absurd ⟨of_decide_eq_true h', h⟩ h1
      · simp [h']
    · simp [h]
  have hb5 : (s.inOverview && !(jsTrim l).isEmpty) = false := by
    rcases h5 with h | h
    · simp [h]
    · simp [h]
  rw [parseStep]
  simp only [hb1, Bool.false_eq_true, if_false, h2, h3, h4, hb5, h6]

/-- Every `parseStep` either leaves `tasks` and `currentTask` untouched,
or the checkbox branch fires: its guards hold and the result is the
explicit task-opening state. -/
theorem parseStep_cases (s : PState) (l : List Char) (n : Nat) :
    ((parseStep s l n).tasks = s.tasks ∧
      (parseStep s l n).currentTask = s.currentTask) ∨
    (∃ pre c post,
      ¬(s.title = [] ∧ isTitleLine l = true) ∧
      promiseSearch l = none ∧
      isOverviewHeading l = false ∧ isTasksHeading l = false ∧
      (s.inOverview = false ∨ (jsTrim l).isEmpty = true) ∧
      taskMatch l = some (pre, c, post) ∧
      parseStep s l n =
        { s with
          tasks := flushTasks s,
          currentTask := some
            { id := taskIdStr ((flushTasks s).length + 1),
              title := jsTrim (taskTitleRaw post),
              description := [],
              status := charStatus c,
              lineNumber := n },
          taskDescription := [] }) := by
  rw [parseStep]
  split
  · exact Or.inl ⟨rfl, rfl⟩
  · rename_i hcond
    split
    · exact Or.inl ⟨rfl, rfl⟩
    · rename_i hpr
      split
      · exact Or.inl ⟨rfl, rfl⟩
      · rename_i hov
        split
        · exact Or.inl ⟨rfl, rfl⟩
        · rename_i hts
          split
          · exact Or.inl ⟨rfl, rfl⟩
          · rename_i hcap
            split
            · rename_i pre c post htm
              refine Or.inr ⟨pre, c, post, ?_, hpr, ?_, ?_, ?_, htm, rfl⟩
              · intro ⟨ht, hti⟩
                exact hcond (by simp [ht, hti])
              · simpa using hov
              · simpa using hts
              · rcases Bool.eq_false_or_eq_true s.inOverview with h | h
                · right
                  rw [h, Bool.true_and] at hcap
                  simpa using hcap
                · exact Or.inl h
            · split
              · exact Or.inl ⟨rfl, rfl⟩
              · exact Or.inl ⟨rfl, rfl⟩

theorem parseStep_lnSet (s : PState) (l : List Char) (n : Nat) :
    (stTasks (parseStep s l n)).map (·.lineNumber) = (stTasks s).map (·.lineNumber) ∨
    (stTasks (parseStep s l n)).map (·.lineNumber) =
      (stTasks s).map (·.lineNumber) ++ [n] := by
  rcases parseStep_cases s l n with ⟨ht, hc⟩ | ⟨pre, c, post, _, _, _, _, _, _, heq⟩
  · left
    rw [stTasks, ht, hc, stTasks]
  · right
    rw [heq]
    show ((flushTasks s ++ _).map _) = _
    rw [List.map_append, stTasks_flush_map_ln]
    rfl

/-- A line number smaller than every remaining step index can only come
from the starting state. -/
theorem lnSet_tracking {m0 : Nat} (B : List (List Char)) (s : PState) (m : Nat)
    (hm : m0 < m)
    (h : m0 ∈ (stTasks (parseGo s m B)).map (·.lineNumber)) :
    m0 ∈ (stTasks s).map (·.lineNumber) := by
  induction B generalizing s m with
  | nil => simpa [parseGo] using h
  | cons l B ih =>
    rw [parseGo] at h
    have h2 := ih (parseStep s l m) (m + 1) (by omega) h
    rcases parseStep_lnSet s l m with heq | heq
    · rwa [heq] at h2
    · rw [heq] at h2
      rcases List.mem_append.1 h2 with h3 | h3
      · exact h3
      · simp at h3
        omega

/-- The simulation relation for the round-trip replay: the two parser
states agree everywhere except that one tracked task — either the open
one or one already in the list, recognised by its line number — carries
status `σ` on the right-hand side. -/
def RelT (σ : TaskStatus) (ln0 : Nat) (s s' : PState) : Prop :=
  s'.title = s.title ∧ s'.overview = s.overview ∧
  s'.completionPromise = s.completionPromise ∧ s'.inOverview = s.inOverview ∧
  s'.taskDescription = s.taskDescription ∧
  ((∃ ct, s.currentTask = some ct ∧ ct.lineNumber = ln0 ∧
      s'.currentTask = some { ct with status := σ } ∧ s'.tasks = s.tasks) ∨
   (∃ p, p < s.tasks.length ∧ (s.tasks.getD p default).lineNumber = ln0 ∧
      s'.currentTask = s.currentTask ∧
      s'.tasks = s.tasks.set p { s.tasks.getD p default with status := σ }))

theorem set_append_of_lt {α : Type} {A : List α} {p : Nat} (B : List α) (y : α)
    (hp : p < A.length) : (A ++ B).set p y = A.set p y ++ B := by
  induction A generalizing p with
  | nil => simp at hp
  | cons a A ih =>
    cases p with
    | zero => rfl
    | succ p =>
      simp only [List.cons_append, List.set_cons_succ]
      rw [ih (by simpa using hp)]

theorem getD_append_left {α : Type} [Inhabited α] {A : List α} {p : Nat}
    (B : List α) (hp : p < A.length) :
    (A ++ B).getD p default = A.getD p default := by
  rw [List.getD_eq_getElem?_getD, List.getD_eq_getElem?_getD,
    List.getElem?_append, if_pos hp]

theorem getD_append_length {α : Type} [Inhabited α] (A : List α) (x : α)
    (B : List α) : (A ++ x :: B).getD A.length default = x := by
  rw [List.getD_eq_getElem?_getD]
  rw [List.getElem?_append_right (Nat.le_refl _)]
  simp

theorem set_append_length {α : Type} (A : List α) (x y : α) (B : List α) :
    (A ++ x :: B).set A.length y = A ++ y :: B := by
  induction A with
  | nil => rfl
  | cons a A ih => simp [ih]

/-! Per-branch evaluation lemmas for `parseStep`. -/

theorem parseStep_eval_title {s : PState} {l : List Char} (n : Nat)
    (h : (decide (s.title = []) && isTitleLine l) = true) :
    parseStep s l n = { s with title := titleValue l } := by
  rw [parseStep]
  simp only [h, if_true]

theorem parseStep_eval_promise {s : PState} {l : List Char} (n : Nat) {g : List Char}
    (h1 : (decide (s.title = []) && isTitleLine l) = false)
    (h2 : promiseSearch l = some g) :
    parseStep s l n = { s with completionPromise := some (jsTrim g) } := by
  rw [parseStep]
  simp only [h1, Bool.false_eq_true, if_false, h2]

theorem parseStep_eval_ovh {s : PState} {l : List Char} (n : Nat)
    (h1 : (decide (s.title = []) && isTitleLine l) = false)
    (h2 : promiseSearch l = none) (h3 : isOverviewHeading l = true) :
    parseStep s l n = { s with inOverview := true } := by
  rw [parseStep]
  simp only [h1, Bool.false_eq_true, if_false, h2, h3, if_true]

theorem parseStep_eval_tsh {s : PState} {l : List Char} (n : Nat)
    (h1 : (decide (s.title = []) && isTitleLine l) = false)
    (h2 : promiseSearch l = none) (h3 : isOverviewHeading l = false)
    (h4 : isTasksHeading l = true) :
    parseStep s l n = { s with inOverview := false } := by
  rw [parseStep]
  simp only [h1, Bool.false_eq_true, if_false, h2, h3, h4, if_true]

theorem parseStep_eval_cap {s : PState} {l : List Char} (n : Nat)
    (h1 : (decide (s.title = []) && isTitleLine l) = false)
    (h2 : promiseSearch l = none) (h3 : isOverviewHeading l = false)
    (h4 : isTasksHeading l = false)
    (h5 : (s.inOverview && !(jsTrim l).isEmpty) = true) :
    parseStep s l n =
      { s with overview :=
          s.overview ++ (if s.overview.isEmpty then [] else ['\n']) ++ l } := by
  rw [parseStep]
  simp only [h1, Bool.false_eq_true, if_false, h2, h3, h4, h5, if_true]

theorem parseStep_eval_desc {s : PState} {l : List Char} (n : Nat)
    (h1 : (decide (s.title = []) && isTitleLine l) = false)
    (h2 : promiseSearch l = none) (h3 : isOverviewHeading l = false)
    (h4 : isTasksHeading l = false)
    (h5 : (s.inOverview && !(jsTrim l).isEmpty) = false)
    (h6 : taskMatch l = none)
    (h7 : (s.currentTask.isSome && isDescLine l) = true) :
    parseStep s l n = { s with taskDescription := s.taskDescription ++ [jsTrim l] } := by
  rw [parseStep]
  simp only [h1, Bool.false_eq_true, if_false, h2, h3, h4, h5, h6, h7, if_true]

theorem parseStep_eval_id {s : PState} {l : List Char} (n : Nat)
    (h1 : (decide (s.title = []) && isTitleLine l) = false)
    (h2 : promiseSearch l = none) (h3 : isOverviewHeading l = false)
    (h4 : isTasksHeading l = false)
    (h5 : (s.inOverview && !(jsTrim l).isEmpty) = false)
    (h6 : taskMatch l = none)
    (h7 : (s.currentTask.isSome && isDescLine l) = false) :
    parseStep s l n = s := by
  rw [parseStep]
  simp only [h1, Bool.false_eq_true, if_false, h2, h3, h4, h5, h6, h7]

theorem RelT_of_fields {σ : TaskStatus} {ln0 : Nat} {s s' t t' : PState}
    (h : RelT σ ln0 s s')
    (hti : t'.title = t.title) (hov : t'.overview = t.overview)
    (hcp : t'.completionPromise = t.completionPromise)
    (hio : t'.inOverview = t.inOverview)
    (htd : t'.taskDescription = t.taskDescription)
    (htk : t.tasks = s.tasks) (htk' : t'.tasks = s'.tasks)
    (hct : t.currentTask = s.currentTask) (hct' : t'.currentTask = s'.currentTask) :
    RelT σ ln0 t t' := by
  obtain ⟨_, _, _, _, _, hph⟩ := h
  refine ⟨hti, hov, hcp, hio, htd, ?_⟩
  rcases hph with ⟨ct, h1, h2, h3, h4⟩ | ⟨p, h1, h2, h3, h4⟩
  · exact Or.inl ⟨ct, hct ▸ h1, h2, hct' ▸ h3, by rw [htk, htk', h4]⟩
  · exact Or.inr ⟨p, htk ▸ h1, htk ▸ h2, by rw [hct, hct', h3],
      by rw [htk', htk, h4]⟩

/-- The tracked status difference survives a flush: the two flushed task
lists differ exactly at one position, which carries the tracked line
number. -/
theorem RelT_flush {σ : TaskStatus} {ln0 : Nat} {s s' : PState}
    (h : RelT σ ln0 s s') :
    ∃ p, p < (flushTasks s).length ∧
      ((flushTasks s).getD p default).lineNumber = ln0 ∧
      flushTasks s' = (flushTasks s).set p
        { (flushTasks s).getD p default with status := σ } := by
  obtain ⟨_, _, _, _, htd, hph⟩ := h
  rcases hph with ⟨ct, hct, hln, hct', htk⟩ | ⟨p, hp, hln, hct', htk⟩
  · refine ⟨s.tasks.length, ?_, ?_, ?_⟩
    · rw [flushTasks, hct]
      simp
    · rw [flushTasks, hct, getD_append_length]
      exact hln
    · rw [flushTasks, hct', flushTasks, hct, htk, htd,
        getD_append_length, set_append_length]
  · rcases hctv : s.currentTask with _ | ct
    · refine ⟨p, ?_, ?_, ?_⟩
      · rw [flushTasks, hctv]
        exact hp
      · rw [flushTasks, hctv]
        exact hln
      · have hctv' : s'.currentTask = none := by rw [hct', hctv]
        rw [flushTasks, hctv', flushTasks, hctv, htk]
    · refine ⟨p, ?_, ?_, ?_⟩
      · rw [flushTasks, hctv]
        simp
        omega
      · rw [flushTasks, hctv, getD_append_left _ hp]
        exact hln
      · rw [flushTasks, hct', hctv, flushTasks, hctv, htk, htd,
          set_append_of_lt _ _ hp, getD_append_left _ hp]

/-- One parser step preserves the simulation relation. -/
theorem RelT_step {σ : TaskStatus} {ln0 : Nat} {s s' : PState}
    (h : RelT σ ln0 s s') (l : List Char) (n : Nat) :
    RelT σ ln0 (parseStep s l n) (parseStep s' l n) := by
  obtain ⟨hti, hov, hcp, hio, htd, hph⟩ := h
  have hsome : s'.currentTask.isSome = s.currentTask.isSome := by
    rcases hph with ⟨ct, h1, _, h3, _⟩ | ⟨p, _, _, h3, _⟩
    · rw [h1, h3]
      rfl
    · rw [h3]
  rcases hc1 : (decide (s.title = []) && isTitleLine l) with _ | _
  case true =>
    have hc1' : (decide (s'.title = []) && isTitleLine l) = true := by rw [hti]; exact hc1
    rw [parseStep_eval_title n hc1, parseStep_eval_title n hc1']
    exact RelT_of_fields ⟨hti, hov, hcp, hio, htd, hph⟩ rfl hov hcp hio htd rfl rfl rfl rfl
  case false =>
  have hc1' : (decide (s'.title = []) && isTitleLine l) = false := by rw [hti]; exact hc1
  rcases hps : promiseSearch l with _ | g
  case some =>
    rw [parseStep_eval_promise n hc1 hps, parseStep_eval_promise n hc1' hps]
    exact RelT_of_fields ⟨hti, hov, hcp, hio, htd, hph⟩ hti hov rfl hio htd rfl rfl rfl rfl
  case none =>
  rcases hc3 : isOverviewHeading l with _ | _
  case true =>
    rw [parseStep_eval_ovh n hc1 hps hc3, parseStep_eval_ovh n hc1' hps hc3]
    exact RelT_of_fields ⟨hti, hov, hcp, hio, htd, hph⟩ hti hov hcp rfl htd rfl rfl rfl rfl
  case false =>
  rcases hc4 : isTasksHeading l with _ | _
  case true =>
    rw [parseStep_eval_tsh n hc1 hps hc3 hc4, parseStep_eval_tsh n hc1' hps hc3 hc4]
    exact RelT_of_fields ⟨hti, hov, hcp, hio, htd, hph⟩ hti hov hcp rfl htd rfl rfl rfl rfl
  case false =>
  rcases hc5 : (s.inOverview && !(jsTrim l).isEmpty) with _ | _
  case true =>
    have hc5' : (s'.inOverview && !(jsTrim l).isEmpty) = true := by rw [hio]; exact hc5
    rw [parseStep_eval_cap n hc1 hps hc3 hc4 hc5,
      parseStep_eval_cap n hc1' hps hc3 hc4 hc5']
    exact RelT_of_fields ⟨hti, hov, hcp, hio, htd, hph⟩ hti (by simp [hov]) hcp hio htd
      rfl rfl rfl rfl
  case false =>
  have hc5' : (s'.inOverview && !(jsTrim l).isEmpty) = false := by rw [hio]; exact hc5
  rcases htm : taskMatch l with _ | pcp
  case some =>
    obtain ⟨pre, c, post⟩ := pcp
    have h1p : ¬(s.title = [] ∧ isTitleLine l = true) := by
      intro ⟨ha, hb⟩
      rw [ha, hb] at hc1
      simp at hc1
    have h1p' : ¬(s'.title = [] ∧ isTitleLine l = true) := by
      intro ⟨ha, hb⟩
      rw [ha, hb] at hc1'
      simp at hc1'
    have h5p : s.inOverview = false ∨ (jsTrim l).isEmpty = true := by
      rcases Bool.eq_false_or_eq_true s.inOverview with hb | hb
      · rw [hb, Bool.true_and] at hc5
        right
        simpa using hc5
      · exact Or.inl hb
    have h5p' : s'.inOverview = false ∨ (jsTrim l).isEmpty = true := by
      rcases h5p with hb | hb
      · exact Or.inl (by rw [hio]; exact hb)
      · exact Or.inr hb
    obtain ⟨p, hp, hpl, hfl⟩ := RelT_flush ⟨hti, hov, hcp, hio, htd, hph⟩
    have hlen : (flushTasks s').length = (flushTasks s).length := by
      rw [hfl, List.length_set]
    rw [parseStep_task_eval n h1p hps hc3 hc4 h5p htm,
      parseStep_task_eval n h1p' hps hc3 hc4 h5p' htm]
    refine ⟨hti, hov, hcp, hio, rfl, Or.inr ⟨p, ?_, ?_, ?_, ?_⟩⟩
    · exact hp
    · exact hpl
    · show some _ = some _
      rw [hlen]
    · exact hfl
  case none =>
  rcases hc7 : (s.currentTask.isSome && isDescLine l) with _ | _
  case true =>
    have hc7' : (s'.currentTask.isSome && isDescLine l) = true := by
      rw [hsome]; exact hc7
    rw [parseStep_eval_desc n hc1 hps hc3 hc4 hc5 htm hc7,
      parseStep_eval_desc n hc1' hps hc3 hc4 hc5' htm hc7']
    exact RelT_of_fields ⟨hti, hov, hcp, hio, htd, hph⟩ hti hov hcp hio
      (by simp [htd]) rfl rfl rfl rfl
  case false =>
  have hc7' : (s'.currentTask.isSome && isDescLine l) = false := by
    rw [hsome]; exact hc7
  rw [parseStep_eval_id n hc1 hps hc3 hc4 hc5 htm hc7,
    parseStep_eval_id n hc1' hps hc3 hc4 hc5' htm hc7']
  exact ⟨hti, hov, hcp, hio, htd, hph⟩

/-- The simulation relation is preserved by the whole remaining run. -/
theorem RelT_go {σ : TaskStatus} {ln0 : Nat} {s s' : PState}
    (h : RelT σ ln0 s s') (n : Nat) (B : List (List Char)) :
    RelT σ ln0 (parseGo s n B) (parseGo s' n B) := by
  induction B generalizing s s' n with
  | nil => exact h
  | cons l B ih => exact ih (RelT_step h l n) (n + 1)

/-- Pointwise update at a position whose line number is unique (by the
strict ordering of line numbers) equals a map keyed on that line number. -/
theorem set_eq_map_of_unique {l : List PlanTask} {p : Nat} {σ : TaskStatus} {ln0 : Nat}
    (hp : p < l.length) (hln : (l.getD p default).lineNumber = ln0)
    (huniq : List.Pairwise (· < ·) (l.map (·.lineNumber))) :
    l.set p { l.getD p default with status := σ } =
      l.map (fun t => if t.lineNumber = ln0 then { t with status := σ } else t) := by
  have hord : ∀ i j, (hi : i < l.length) → (hj : j < l.length) → i < j →
      (l.get ⟨i, hi⟩).lineNumber < (l.get ⟨j, hj⟩).lineNumber := by
    intro i j hi hj hij
    have := (List.pairwise_iff_get.1 huniq)
      ⟨i, by simpa using hi⟩ ⟨j, by simpa using hj⟩ (by simpa using hij)
    simpa using this
  have hgp : l.getD p default = l.get ⟨p, hp⟩ := by
    rw [List.getD_eq_getElem?_getD, List.getElem?_eq_getElem hp]
    rfl
  apply List.ext_get
  · simp
  intro j hj hj2
  have hjl : j < l.length := by simpa using hj2
  rw [List.get_set, List.get_map]
  by_cases hjp : p = j
  · subst hjp
    rw [if_pos rfl]
    have : (l.get ⟨p, hp⟩).lineNumber = ln0 := by rw [← hgp, hln]
    rw [if_pos this, hgp]
  · rw [if_neg hjp]
    have hne : (l.get ⟨j, hjl⟩).lineNumber ≠ ln0 := by
      rcases Nat.lt_or_ge j p with hlt | hge
      · have := hord j p hjl hp hlt
        rw [← hgp, hln] at this
        omega
      · have hplt : p < j := by omega
        have := hord p j hp hjl hplt
        rw [← hgp, hln] at this
        omega
    rw [if_neg hne]

theorem boxMid_of_status_ne {c : Char} (hc : c = ' ' ∨ c = 'x' ∨ c = 'X')
    {ns : NewStatus} (h : charStatus c ≠ NewStatus.toStatus ns) :
    boxMid ns c = true := by
  rcases hc with rfl | rfl | rfl <;> cases ns <;>
    first
    | decide
    | exact absurd (by decide) h

theorem charStatus_boxRep (ns : NewStatus) :
    charStatus (boxRep ns) = NewStatus.toStatus ns := by
  cases ns <;> decide

theorem boxRep_trio (ns : NewStatus) :
    boxRep ns = ' ' ∨ boxRep ns = 'x' ∨ boxRep ns = 'X' := by
  cases ns
  · exact Or.inr (Or.inl rfl)
  · exact Or.inl rfl

theorem pre_no_bracket {pre : List Char} (h : PreShape pre) :
    ∀ a ∈ pre, a ≠ '[' :=
  fun a ha => (prePred_facts (h.all_prePred a ha)).1

/-! ## Claim C1 -/

/-- C1 counterexample: when the target status does not change (here
`completed` on an already-completed task) the checkbox substitution can
land inside the task's title, so re-parsing does not preserve titles. -/
theorem updateTaskStatus_roundtrip_fails :
    ((parsePlanFile "- [x] a [ ] b".data).tasks.find?
        (fun t => t.id == "task-1".data)).isSome ∧
    (parsePlanFile (updateTaskStatus "- [x] a [ ] b".data "task-1".data
        (parsePlanFile "- [x] a [ ] b".data).tasks .completed)).tasks.map
          (fun t => t.title) ≠
      (parsePlanFile "- [x] a [ ] b".data).tasks.map (fun t => t.title) := by
  decide

/-- C1 (amended): if the requested status actually differs from the
task's current status, re-parsing the mutated text yields the same
document — identical title, overview and completion promise, and the
same task list except that the targeted task (identified by its line
number) carries the new status. -/
theorem updateTaskStatus_roundtrip (content tid : List Char) (ns : NewStatus)
    (task : PlanTask)
    (hfind : (parsePlanFile content).tasks.find? (fun t => t.id == tid) = some task)
    (hst : task.status ≠ NewStatus.toStatus ns) :
    (parsePlanFile (updateTaskStatus content tid (parsePlanFile content).tasks ns)).title =
      (parsePlanFile content).title ∧
    (parsePlanFile (updateTaskStatus content tid (parsePlanFile content).tasks ns)).overview =
      (parsePlanFile content).overview ∧
    (parsePlanFile (updateTaskStatus content tid
        (parsePlanFile content).tasks ns)).completionPromise =
      (parsePlanFile content).completionPromise ∧
    (parsePlanFile (updateTaskStatus content tid (parsePlanFile content).tasks ns)).tasks =
      (parsePlanFile content).tasks.map
        (fun t => if t.lineNumber = task.lineNumber
          then { t with status := NewStatus.toStatus ns } else t) := by
  have htask : task ∈ (parsePlanFile content).tasks := List.mem_of_find?_eq_some hfind
  obtain ⟨hids, hpw, hfacts⟩ := parse_master content
  obtain ⟨hge, hle, htf⟩ := hfacts task htask
  set lines := splitLines content with hlinesdef
  set idx := task.lineNumber - 1 with hidxdef
  have hln0 : task.lineNumber = idx + 1 := by omega
  have hidx : idx < lines.length := by omega
  set line := lines.getD idx [] with hlinedef
  obtain ⟨pre, c, post, htm, hstat, htitle⟩ := htf
  obtain ⟨hdec, hshape, htrio, hpost⟩ := taskMatch_sound htm
  have hdecL : line = pre ++ '[' :: c :: ']' :: post := hdec
  have hgetd : line = lines[idx] := by
    rw [hlinedef, List.getD_eq_getElem?_getD, List.getElem?_eq_getElem hidx]
    rfl
  set A := lines.take idx with hAdef
  set B := lines.drop (idx + 1) with hBdef
  have hAlen : A.length = idx := by
    rw [hAdef, List.length_take]
    omega
  have hsplit : lines = A ++ line :: B := by
    conv_lhs => rw [← List.take_append_drop idx lines]
    rw [List.drop_eq_getElem_cons hidx, ← hgetd]
  set s1 := parseGo initPState 1 A with hs1def
  have hgo_orig : parseGo initPState 1 lines =
      parseGo (parseStep s1 line (idx + 1)) (idx + 1 + 1) B := by
    conv_lhs => rw [hsplit]
    rw [parseGo_append, hAlen, Nat.add_comm 1 idx, parseGo]
  have hinit : ParseInv lines 1 initPState := by
    refine ⟨rfl, ?_, ?_, ?_, ?_⟩
    · intro t hct
      simp [initPState] at hct
    · simp [stTasks, initPState]
    · intro t htmem
      simp [stTasks, initPState] at htmem
    · intro t htmem
      simp [stTasks, initPState] at htmem
  have hdropA : lines.drop (1 - 1) = A ++ (line :: B) := by simpa using hsplit
  have hinv1 : ParseInv lines (1 + A.length) s1 :=
    ParseInv_go_prefix hdropA le_rfl hinit
  rw [hAlen, Nat.add_comm 1 idx] at hinv1
  obtain ⟨_, _, _, hbound1, _⟩ := hinv1
  have hmem_fin : task.lineNumber ∈
      ((parsePlanFile content).tasks).map (·.lineNumber) :=
    List.mem_map.2 ⟨task, htask, rfl⟩
  have htasks_eq : (parsePlanFile content).tasks =
      flushTasks (parseGo initPState 1 lines) := rfl
  rw [htasks_eq, hgo_orig] at hmem_fin
  rw [stTasks_flush_map_ln] at hmem_fin
  have hmem2 : task.lineNumber ∈
      (stTasks (parseStep s1 line (idx + 1))).map (·.lineNumber) :=
    lnSet_tracking B _ (idx + 1 + 1) (by omega) hmem_fin
  rcases parseStep_cases s1 line (idx + 1) with ⟨ht2, hc2⟩ |
    ⟨pre2, c2, post2, hb1, hb2, hb3, hb4, hb5, htm2, hs2⟩
  · exfalso
    have hstq : stTasks (parseStep s1 line (idx + 1)) = stTasks s1 := by
      rw [stTasks, ht2, hc2, stTasks]
    rw [hstq] at hmem2
    obtain ⟨t2, ht2mem, ht2ln⟩ := List.mem_map.1 hmem2
    have := (hbound1 t2 ht2mem).2
    omega
  · rw [htm] at htm2
    injection htm2 with htm2
    simp only [Prod.mk.injEq] at htm2
    obtain ⟨rfl, rfl, rfl⟩ := htm2
    rw [hstat] at hst
    have hnobr : ∀ a ∈ pre, a ≠ '[' := pre_no_bracket hshape
    have hbm : boxMid ns c = true := boxMid_of_status_ne htrio hst
    have hline' : replaceLine ns line = pre ++ '[' :: boxRep ns :: ']' :: post := by
      rw [replaceLine_eq, hdecL, replaceBox_append_no_bracket _ _ _ hnobr,
        replaceBox_box _ _ _ hbm]
    have htm' : taskMatch (pre ++ '[' :: boxRep ns :: ']' :: post) =
        some (pre, boxRep ns, post) :=
      taskMatch_complete hshape (boxRep_trio ns) hpost
    have hisSome : (taskMatch (pre ++ '[' :: boxRep ns :: ']' :: post)).isSome := by
      simp [htm']
    obtain ⟨⟨x, t, hxe, hx⟩, hbrx⟩ := taskMatch_head_facts hisSome
    have hTitle' : isTitleLine (pre ++ '[' :: boxRep ns :: ']' :: post) = false := by
      rw [hxe]
      exact isTitleLine_ne_hash hx _
    have hOvh' : isOverviewHeading (pre ++ '[' :: boxRep ns :: ']' :: post) = false := by
      rw [hxe]
      exact isOverviewHeading_ne_hash hx _
    have hTsh' : isTasksHeading (pre ++ '[' :: boxRep ns :: ']' :: post) = false := by
      rw [hxe]
      exact isTasksHeading_ne_hash hx _
    have hps' : promiseSearch (pre ++ '[' :: boxRep ns :: ']' :: post) = none := by
      rw [← promiseSearch_box_congr hshape.all_prePred htrio (boxRep_trio ns), ← hdecL]
      exact hb2
    have hbrline : '[' ∈ line := by
      rw [hdecL]
      simp
    have hio : s1.inOverview = false := by
      rcases hb5 with h | h
      · exact h
      · exfalso
        have hne := jsTrim_ne_nil_of_mem hbrline (by decide)
        rw [List.isEmpty_iff] at h
        exact hne h
    have h1' : ¬(s1.title = [] ∧
        isTitleLine (pre ++ '[' :: boxRep ns :: ']' :: post) = true) := by
      intro ⟨_, hq⟩
      rw [hTitle'] at hq
      exact Bool.false_ne_true hq
    have hs2' : parseStep s1 (pre ++ '[' :: boxRep ns :: ']' :: post) (idx + 1) =
        { s1 with
          tasks := flushTasks s1,
          currentTask := some
            { id := taskIdStr ((flushTasks s1).length + 1),
              title := jsTrim (taskTitleRaw post),
              description := [],
              status := charStatus (boxRep ns),
              lineNumber := idx + 1 },
          taskDescription := [] } :=
      parseStep_task_eval (idx + 1) h1' hps' hOvh' hTsh' (Or.inl hio) htm'
    have hRel : RelT (NewStatus.toStatus ns) task.lineNumber
        (parseStep s1 line (idx + 1))
        (parseStep s1 (pre ++ '[' :: boxRep ns :: ']' :: post) (idx + 1)) := by
      rw [hs2, hs2', charStatus_boxRep]
      exact ⟨rfl, rfl, rfl, rfl, rfl, Or.inl ⟨_, rfl, hln0.symm, rfl, rfl⟩⟩
    have hRelF := RelT_go hRel (idx + 1 + 1) B
    have hlines_out : splitLines (updateTaskStatus content tid
        (parsePlanFile content).tasks ns) = lines.set idx (replaceLine ns line) :=
      updateTaskStatus_lines content tid ns task hfind
    have hset : lines.set idx (replaceLine ns line) =
        A ++ (pre ++ '[' :: boxRep ns :: ']' :: post) :: B := by
      conv_lhs => rw [hsplit, show idx = A.length from hAlen.symm]
      rw [set_append_length, hline']
    have hgo_rep : parseGo initPState 1
        (A ++ (pre ++ '[' :: boxRep ns :: ']' :: post) :: B) =
        parseGo (parseStep s1 (pre ++ '[' :: boxRep ns :: ']' :: post) (idx + 1))
          (idx + 1 + 1) B := by
      rw [parseGo_append, hAlen, Nat.add_comm 1 idx, parseGo]
    obtain ⟨hfT, hfO, hfP, _, _, _⟩ := hRelF
    obtain ⟨p, hp, hpl, hfl⟩ := RelT_flush (RelT_go hRel (idx + 1 + 1) B)
    rw [htasks_eq, hgo_orig] at hpw
    refine ⟨?_, ?_, ?_, ?_⟩
    · show (parseGo initPState 1 (splitLines (updateTaskStatus content tid
        (parsePlanFile content).tasks ns))).title = (parsePlanFile content).title
      rw [hlines_out, hset, hgo_rep]
      rw [show (parsePlanFile content).title =
        (parseGo initPState 1 lines).title from rfl, hgo_orig]
      exact hfT
    · show (parseGo initPState 1 (splitLines (updateTaskStatus content tid
        (parsePlanFile content).tasks ns))).overview = (parsePlanFile content).overview
      rw [hlines_out, hset, hgo_rep]
      rw [show (parsePlanFile content).overview =
        (parseGo initPState 1 lines).overview from rfl, hgo_orig]
      exact hfO
    · show (parseGo initPState 1 (splitLines (updateTaskStatus content tid
        (parsePlanFile content).tasks ns))).completionPromise =
        (parsePlanFile content).completionPromise
      rw [hlines_out, hset, hgo_rep]
      rw [show (parsePlanFile content).completionPromise =
        (parseGo initPState 1 lines).completionPromise from rfl, hgo_orig]
      exact hfP
    · show flushTasks (parseGo initPState 1 (splitLines (updateTaskStatus content tid
        (parsePlanFile content).tasks ns))) = _
      rw [hlines_out, hset, hgo_rep, hfl, set_eq_map_of_unique hp hpl hpw]
      rw [htasks_eq, hgo_orig]

theorem updateTaskStatus_roundtrip_witness :
    (parsePlanFile demoPlan).tasks.find? (fun t => t.id == "task-1".data) =
      some { id := "task-1".data, title := "Task A".data, description := [],
             status := .pending, lineNumber := 3 } ∧
    ({ id := "task-1".data, title := "Task A".data, description := [],
        status := .pending, lineNumber := 3 } : PlanTask).status ≠
      NewStatus.toStatus .completed ∧
    ((parsePlanFile (updateTaskStatus demoPlan "task-1".data
        (parsePlanFile demoPlan).tasks .completed)).title =
      (parsePlanFile demoPlan).title ∧
    (parsePlanFile (updateTaskStatus demoPlan "task-1".data
        (parsePlanFile demoPlan).tasks .completed)).overview =
      (parsePlanFile demoPlan).overview ∧
    (parsePlanFile (updateTaskStatus demoPlan "task-1".data
        (parsePlanFile demoPlan).tasks .completed)).completionPromise =
      (parsePlanFile demoPlan).completionPromise ∧
    (parsePlanFile (updateTaskStatus demoPlan "task-1".data
        (parsePlanFile demoPlan).tasks .completed)).tasks =
      (parsePlanFile demoPlan).tasks.map
        (fun t => if t.lineNumber = 3
          then { t with status := NewStatus.toStatus .completed } else t)) :=
  ⟨by decide, by decide,
    updateTaskStatus_roundtrip demoPlan "task-1".data .completed
      { id := "task-1".data, title := "Task A".data, description := [],
        status := .pending, lineNumber := 3 } (by decide) (by decide)⟩

/-! ## The loop controller: persisted state and the four loop starters -/

/-- The persisted loop state (`NelsonState`/`RalphState` of types.ts): the
fields the loop starters write and the session-idle handler reads.  The
plan-mode fields are optional. -/
structure LoopState where
  active : Bool
  iteration : Nat
  maxIterations : Nat
  completionPromise : Option (List Char)
  prompt : List Char
  sessionId : Option (List Char)
  startedAt : List Char
  planFile : Option (List Char)
  currentTaskId : Option (List Char)
  mode : Option (List Char)
  currentTaskNum : Option Nat
deriving DecidableEq, Repr, Inhabited

/-- JS truthiness of an optional string: `null`, `undefined` and `""` are
falsy, so `s || null` and `s ? a : b` both key on this. -/
def strVal : Option (List Char) → Option (List Char)
  | some s => if s.isEmpty then none else some s
  | none => none

/-- The interpolation of a max-iterations count:
`maxIterations > 0 ? maxIterations : "unlimited"`. -/
def maxIterDisplay (mI : Nat) : List Char :=
  if mI > 0 then (Nat.repr mI).data else "unlimited".data

/-- The 59-character box line used around completion-promise blocks. -/
def sepLine : List Char := List.replicate 59 '═'

/-- The body of `nm-loop` past its guards: writes the fresh state and
returns the activation banner. -/
def nmLoopProceed (prompt : List Char) (mI : Nat) (cp : Option (List Char))
    (sessionId : Option (List Char)) (startedAt : List Char) :
    List Char × Option LoopState :=
  let state : LoopState :=
    { active := true, iteration := 1, maxIterations := mI,
      completionPromise := strVal cp, prompt := prompt,
      sessionId := strVal sessionId, startedAt := startedAt,
      planFile := none, currentTaskId := none, mode := none,
      currentTaskNum := none }
  let base :=
    "🔄 Nelson loop activated!\n\nIteration: 1\nMax iterations: ".data ++
    maxIterDisplay mI ++ "\nCompletion promise: ".data ++
    (match strVal cp with
     | some p => p ++ " (ONLY output when TRUE - do not lie!)".data
     | none => "none (loop will stop at max iterations)".data) ++
    "\n\nThe loop is now active. When the session becomes idle, the SAME PROMPT will be\nfed back to you. You'll see your previous work in files, creating a\nself-referential loop where you iteratively improve on the same task.\n\nTo stop the loop early, use nm-cancel.\n\n---\n\n".data ++
    prompt
  let out :=
    match strVal cp with
    | some p =>
      base ++ "\n\n".data ++ sepLine ++
        "\nCOMPLETION: Output <promise>".data ++ p ++
        "</promise> when truly done.\nUse exact tags. Statement must be TRUE. Never lie to exit early.\n".data ++
        sepLine
    | none => base
  (out, some state)

/-- `nm-loop` tool `execute` (loop tools module): the returned text and
the state written, if any (`none` means no `writeState`).  `sessionId`
stands for the tool context's session id and `startedAt` for
`new Date().toISOString()`. -/
def nmLoopExecute (prompt : List Char) (maxIterations : Option Nat)
    (completionPromise : Option (List Char)) (existingState : Option LoopState)
    (sessionId : Option (List Char)) (startedAt : List Char) :
    List Char × Option LoopState :=
  let mI := maxIterations.getD 2
  if prompt.isEmpty || (jsTrim prompt).isEmpty then
    ("Error: No prompt provided. Please provide a task description.".data, none)
  else
    match existingState with
    | some st =>
      if st.active then
        ("Error: A Nelson loop is already active (iteration ".data ++
          (Nat.repr st.iteration).data ++
          "). Use the nm-cancel tool to cancel it first.".data, none)
      else nmLoopProceed prompt mI completionPromise sessionId startedAt
    | none => nmLoopProceed prompt mI completionPromise sessionId startedAt

/-- The body of `ralph-loop` past its guards. -/
def ralphLoopProceed (prompt : List Char) (mI : Nat) (cp : Option (List Char))
    (sessionId : Option (List Char)) (startedAt : List Char) :
    List Char × Option LoopState :=
  let state : LoopState :=
    { active := true, iteration := 1, maxIterations := mI,
      completionPromise := strVal cp, prompt := prompt,
      sessionId := strVal sessionId, startedAt := startedAt,
      planFile := none, currentTaskId := none, mode := none,
      currentTaskNum := none }
  let base :=
    "🔄 Ralph loop activated!\n\nIteration: 1\nMax iterations: ".data ++
    maxIterDisplay mI ++ "\nCompletion promise: ".data ++
    (match strVal cp with
     | some p => p ++ " (ONLY output when TRUE - do not lie!)".data
     | none => "none (runs forever)".data) ++
    "\n\nThe loop is now active. When the session becomes idle, the SAME PROMPT will be\nfed back to you. You'll see your previous work in files, creating a\nself-referential loop where you iteratively improve on the same task.\n\n⚠️  WARNING: This loop cannot be stopped manually! It will run infinitely\nunless you set maxIterations or completionPromise.\n\n---\n\n".data ++
    prompt
  let out :=
    match strVal cp with
    | some p =>
      base ++ "\n\n".data ++ sepLine ++
        "\nCRITICAL - Ralph Loop Completion Promise\n".data ++ sepLine ++
        "\n\nTo complete this loop, output this EXACT text:\n  <promise>".data ++
        p ++
        "</promise>\n\nSTRICT REQUIREMENTS (DO NOT VIOLATE):\n  ✓ Use <promise> XML tags EXACTLY as shown above\n  ✓ The statement MUST be completely and unequivocally TRUE\n  ✓ Do NOT output false statements to exit the loop\n  ✓ Do NOT lie even if you think you should exit\n\nIMPORTANT - Do not circumvent the loop:\n  Even if you believe you're stuck, the task is impossible,\n  or you've been running too long - you MUST NOT output a\n  false promise statement. The loop is designed to continue\n  until the promise is GENUINELY TRUE. Trust the process.\n".data ++
        sepLine
    | none => base
  (out, some state)

/-- `ralph-loop` tool `execute` (src/index.ts): the returned text and the
state written, if any. -/
def ralphLoopExecute (prompt : List Char) (maxIterations : Option Nat)
    (completionPromise : Option (List Char)) (existingState : Option LoopState)
    (sessionId : Option (List Char)) (startedAt : List Char) :
    List Char × Option LoopState :=
  let mI := maxIterations.getD 2
  if prompt.isEmpty || (jsTrim prompt).isEmpty then
    ("Error: No prompt provided. Please provide a task description.".data, none)
  else
    match existingState with
    | some st =>
      if st.active then
        ("Error: A Ralph loop is already active (iteration ".data ++
          (Nat.repr st.iteration).data ++
          "). Use the cancel-ralph tool to cancel it first.".data, none)
      else ralphLoopProceed prompt mI completionPromise sessionId startedAt
    | none => ralphLoopProceed prompt mI completionPromise sessionId startedAt

/-- The body of `nm-start` past its guards: writes the plan-mode state
and returns the start banner.  `taskPrompt` stands for the text built by
`generateSingleTaskPrompt` (prompt generation is outside this model). -/
def nmStartProceed (planFile : List Char) (mI : Nat) (plan : ParsedPlan)
    (pendingLen : Nat) (taskPrompt : List Char)
    (sessionId : Option (List Char)) (startedAt : List Char) :
    List Char × Option LoopState :=
  let firstPendingIdx := plan.tasks.findIdx (fun t => decide (t.status ≠ TaskStatus.completed))
  let firstTask := plan.tasks.getD firstPendingIdx default
  let firstTaskNum := firstPendingIdx + 1
  let cp := strVal plan.completionPromise
  let state : LoopState :=
    { active := true, iteration := 1, maxIterations := mI,
      completionPromise := cp, prompt := [],
      sessionId := strVal sessionId, startedAt := startedAt,
      planFile := some planFile, currentTaskId := some firstTask.id,
      mode := some "loop".data, currentTaskNum := some firstTaskNum }
  let base :=
    "🔄 Nelson loop started from ".data ++ planFile ++ "!\n\nPlan: ".data ++
    (if plan.title.isEmpty then "Untitled".data else plan.title) ++
    "\nTasks: ".data ++ (Nat.repr pendingLen).data ++ " pending, ".data ++
    (Nat.repr (plan.tasks.length - pendingLen)).data ++
    " complete\nMax iterations: ".data ++ maxIterDisplay mI ++
    "\nMode: Loop with auto-commit per task\n\nStarting with task ".data ++
    (Nat.repr firstTaskNum).data ++ ": ".data ++ firstTask.title ++
    "\n\n---\n\n".data ++ taskPrompt
  let out :=
    match cp with
    | some p =>
      base ++ "\n\n".data ++ sepLine ++
        "\nCOMPLETION: Output <promise>".data ++ p ++
        "</promise> when ALL tasks are done\n".data ++ sepLine
    | none => base
  (out, some state)

/-- `nm-start` tool `execute` (plan tools module): the returned text and
the state written, if any.  `planFile` is the already-resolved plan path,
`content` the result of `readPlanFile`, and `planNotFound` the text
`formatPlanNotFoundError` would produce. -/
def nmStartExecute (planFile : List Char) (maxIterations : Option Nat)
    (content : Option (List Char)) (existingState : Option LoopState)
    (taskPrompt planNotFound : List Char)
    (sessionId : Option (List Char)) (startedAt : List Char) :
    List Char × Option LoopState :=
  let mI := maxIterations.getD 0
  match strVal content with
  | none => (planNotFound, none)
  | some c =>
    let plan := parsePlanFile c
    if plan.tasks.isEmpty then
      ("No tasks found in ".data ++ planFile ++
        ". Add tasks using checkbox format:\n- [ ] Task description".data, none)
    else
      let pendingTasks := plan.tasks.filter (fun t => decide (t.status ≠ TaskStatus.completed))
      if pendingTasks.isEmpty then
        ("All tasks in ".data ++ planFile ++ " are already complete!".data, none)
      else
        match existingState with
        | some st =>
          if st.active then
            ("A Nelson loop is already active (iteration ".data ++
              (Nat.repr st.iteration).data ++
              "). Use nm-cancel to stop it first.".data, none)
          else nmStartProceed planFile mI plan pendingTasks.length taskPrompt
            sessionId startedAt
        | none => nmStartProceed planFile mI plan pendingTasks.length taskPrompt
            sessionId startedAt

/-- The body of `rw-start` past its guards. -/
def rwStartProceed (planFile : List Char) (mI : Nat) (plan : ParsedPlan)
    (pendingLen : Nat) (taskPrompt : List Char)
    (sessionId : Option (List Char)) (startedAt : List Char) :
    List Char × Option LoopState :=
  let firstPendingIdx := plan.tasks.findIdx (fun t => decide (t.status ≠ TaskStatus.completed))
  let firstTask := plan.tasks.getD firstPendingIdx default
  let firstTaskNum := firstPendingIdx + 1
  let cp := strVal plan.completionPromise
  let state : LoopState :=
    { active := true, iteration := 1, maxIterations := mI,
      completionPromise := cp, prompt := [],
      sessionId := strVal sessionId, startedAt := startedAt,
      planFile := some planFile, currentTaskId := some firstTask.id,
      mode := some "loop".data, currentTaskNum := some firstTaskNum }
  let base :=
    "🔄 Ralph loop started from ".data ++ planFile ++ "!\n\nPlan: ".data ++
    (if plan.title.isEmpty then "Untitled".data else plan.title) ++
    "\nTasks: ".data ++ (Nat.repr pendingLen).data ++ " pending, ".data ++
    (Nat.repr (plan.tasks.length - pendingLen)).data ++
    " complete\nMax iterations: ".data ++ maxIterDisplay mI ++
    "\nMode: Loop with auto-commit per task\n\nStarting with task ".data ++
    (Nat.repr firstTaskNum).data ++ ": ".data ++ firstTask.title ++
    "\n\n---\n\n".data ++ taskPrompt
  let out :=
    match cp with
    | some p =>
      base ++ "\n\n".data ++ sepLine ++
        "\nCOMPLETION: Output <promise>".data ++ p ++
        "</promise> when ALL tasks are done\n".data ++ sepLine
    | none => base
  (out, some state)

/-- `rw-start` tool `execute` (ralph plan tools module): the returned
text and the state written, if any. -/
def rwStartExecute (planFile : List Char) (maxIterations : Option Nat)
    (content : Option (List Char)) (existingState : Option LoopState)
    (taskPrompt : List Char)
    (sessionId : Option (List Char)) (startedAt : List Char) :
    List Char × Option LoopState :=
  let mI := maxIterations.getD 0
  match strVal content with
  | none =>
    ("No plan file found at ".data ++ planFile ++
      ".\n\nTo get started:\n1. Use rw-plan to create a plan file\n2. Edit the plan with your tasks\n3. Run rw-start again".data, none)
  | some c =>
    let plan := parsePlanFile c
    if plan.tasks.isEmpty then
      ("No tasks found in ".data ++ planFile ++
        ". Add tasks using checkbox format:\n- [ ] Task description".data, none)
    else
      let pendingTasks := plan.tasks.filter (fun t => decide (t.status ≠ TaskStatus.completed))
      if pendingTasks.isEmpty then
        ("All tasks in ".data ++ planFile ++ " are already complete!".data, none)
      else
        match existingState with
        | some st =>
          if st.active then
            ("A Ralph loop is already active (iteration ".data ++
              (Nat.repr st.iteration).data ++
              "). Use rw-cancel to stop it first.".data, none)
          else rwStartProceed planFile mI plan pendingTasks.length taskPrompt
            sessionId startedAt
        | none => rwStartProceed planFile mI plan pendingTasks.length taskPrompt
            sessionId startedAt

/-- C4: with an already-active persisted loop state, each of the four
loop starters returns its already-active error text and performs no
state write (the written-state component is `none`), leaving the
existing state untouched. -/
theorem loopStart_rejected_when_active (st : LoopState) (hact : st.active = true)
    (prompt : List Char) (hp1 : prompt.isEmpty = false)
    (hp2 : (jsTrim prompt).isEmpty = false)
    (mI : Option Nat) (cp : Option (List Char)) (sid : Option (List Char))
    (t0 planFile content taskPrompt notFound : List Char)
    (hc : content.isEmpty = false)
    (ht : (parsePlanFile content).tasks.isEmpty = false)
    (hpend : ((parsePlanFile content).tasks.filter
      (fun t => decide (t.status ≠ TaskStatus.completed))).isEmpty = false) :
    nmLoopExecute prompt mI cp (some st) sid t0 =
      ("Error: A Nelson loop is already active (iteration ".data ++
        (Nat.repr st.iteration).data ++
        "). Use the nm-cancel tool to cancel it first.".data, none) ∧
    ralphLoopExecute prompt mI cp (some st) sid t0 =
      ("Error: A Ralph loop is already active (iteration ".data ++
        (Nat.repr st.iteration).data ++
        "). Use the cancel-ralph tool to cancel it first.".data, none) ∧
    nmStartExecute planFile mI (some content) (some st) taskPrompt notFound sid t0 =
      ("A Nelson loop is already active (iteration ".data ++
        (Nat.repr st.iteration).data ++
        "). Use nm-cancel to stop it first.".data, none) ∧
    rwStartExecute planFile mI (some content) (some st) taskPrompt sid t0 =
      ("A Ralph loop is already active (iteration ".data ++
        (Nat.repr st.iteration).data ++
        "). Use rw-cancel to stop it first.".data, none) := by
  refine ⟨?_, ?_, ?_, ?_⟩
  · rw [nmLoopExecute]
    simp only [hp1, hp2, Bool.or_self, Bool.false_eq_true, if_false, hact, if_true]
  · rw [ralphLoopExecute]
    simp only [hp1, hp2, Bool.or_self, Bool.false_eq_true, if_false, hact, if_true]
  · rw [nmStartExecute]
    simp only [strVal, hc, Bool.false_eq_true, if_false, ht, hpend, hact, if_true]
  · rw [rwStartExecute]
    simp only [strVal, hc, Bool.false_eq_true, if_false, ht, hpend, hact, if_true]

/-- A concrete active loop state for witnesses. -/
def demoState : LoopState :=
  { active := true, iteration := 3, maxIterations := 2,
    completionPromise := none, prompt := "x".data, sessionId := none,
    startedAt := [], planFile := none, currentTaskId := none,
    mode := none, currentTaskNum := none }

theorem loopStart_rejected_when_active_witness :
    demoState.active = true ∧
    ("Build it".data).isEmpty = false ∧
    (jsTrim "Build it".data).isEmpty = false ∧
    demoPlan.isEmpty = false ∧
    (parsePlanFile demoPlan).tasks.isEmpty = false ∧
    ((parsePlanFile demoPlan).tasks.filter
      (fun t => decide (t.status ≠ TaskStatus.completed))).isEmpty = false ∧
    (nmLoopExecute "Build it".data none none (some demoState) none [] =
      ("Error: A Nelson loop is already active (iteration 3). Use the nm-cancel tool to cancel it first.".data, none) ∧
    ralphLoopExecute "Build it".data none none (some demoState) none [] =
      ("Error: A Ralph loop is already active (iteration 3). Use the cancel-ralph tool to cancel it first.".data, none) ∧
    nmStartExecute "PLAN.md".data none (some demoPlan) (some demoState)
        "T".data "NF".data none [] =
      ("A Nelson loop is already active (iteration 3). Use nm-cancel to stop it first.".data, none) ∧
    rwStartExecute "PLAN.md".data none (some demoPlan) (some demoState)
        "T".data none [] =
      ("A Ralph loop is already active (iteration 3). Use rw-cancel to stop it first.".data, none)) := by
  refine ⟨rfl, by decide, by decide, by decide, by decide, by decide, ?_⟩
  have h := loopStart_rejected_when_active demoState rfl
    "Build it".data (by decide) (by decide) none none none
    [] "PLAN.md".data demoPlan "T".data "NF".data
    (by decide) (by decide) (by decide)
  simpa using h

/-! ## The session-idle handler -/

/-- The outcome of one `session.idle` event: the state left on disk, the
prompt re-injected into the session (if any), and the toast shown. -/
structure IdleResult where
  finalState : Option LoopState
  sentPrompt : Option (List Char)
  toast : Option (List Char × List Char)
deriving DecidableEq, Repr

/-- The `session.idle` branch of the plugin's `event` handler
(src/index.ts).  `state0` is the state read from disk, `evSid` the
event's session id, and `promiseDetected` the result of
`checkCompletionInSession` on the completion promise. -/
def handleSessionIdle (state0 : Option LoopState) (evSid : Option (List Char))
    (promiseDetected : Bool) : IdleResult :=
  match state0 with
  | none => { finalState := none, sentPrompt := none, toast := none }
  | some st =>
    if st.active then
      let sessionId : Option (List Char) :=
        match strVal evSid with
        | some s => some s
        | none => st.sessionId
      match strVal sessionId with
      | none => { finalState := some st, sentPrompt := none, toast := none }
      | some sid =>
        let st1 := if st.sessionId = some sid then st
          else { st with sessionId := some sid }
        if (strVal st1.completionPromise).isSome && promiseDetected then
          { finalState := none, sentPrompt := none,
            toast := some ("Ralph loop completed after ".data ++
              (Nat.repr st1.iteration).data ++ " iterations!".data,
              "success".data) }
        else if st1.maxIterations > 0 ∧ st1.iteration ≥ st1.maxIterations then
          { finalState := none, sentPrompt := none,
            toast := some ("Ralph loop: Max iterations (".data ++
              (Nat.repr st1.maxIterations).data ++ ") reached.".data,
              "warning".data) }
        else
          let st2 := { st1 with iteration := st1.iteration + 1 }
          let systemMsg :=
            match strVal st2.completionPromise with
            | some p =>
              "🔄 Ralph iteration ".data ++ (Nat.repr st2.iteration).data ++
                " | To stop: output <promise>".data ++ p ++
                "</promise> (ONLY when statement is TRUE - do not lie to exit!)".data
            | none =>
              "🔄 Ralph iteration ".data ++ (Nat.repr st2.iteration).data ++
                " | No completion promise set - loop runs infinitely".data
          { finalState := some st2,
            sentPrompt := some (systemMsg ++ "\n\n---\n\n".data ++ st2.prompt),
            toast := none }
    else { finalState := some st, sentPrompt := none, toast := none }

/-- C5: on session idle with an active state whose completion promise
was not matched, a resolvable session id, nonzero `maxIterations` and
`iteration ≥ maxIterations`, the handler reaches the limit terminal: the
persisted state is deleted, no incremented state survives, no prompt is
re-injected, and the warning toast names the limit. -/
theorem sessionIdle_limit_terminal (st : LoopState) (hact : st.active = true)
    (evSid : Option (List Char)) (promiseDetected : Bool)
    (hpd : promiseDetected = false) (sid : List Char)
    (hsid : (match strVal evSid with
      | some s => some s
      | none => st.sessionId) = some sid)
    (hsid2 : sid.isEmpty = false)
    (hmax : st.maxIterations > 0) (hiter : st.iteration ≥ st.maxIterations) :
    handleSessionIdle (some st) evSid promiseDetected =
      { finalState := none, sentPrompt := none,
        toast := some ("Ralph loop: Max iterations (".data ++
          (Nat.repr st.maxIterations).data ++ ") reached.".data,
          "warning".data) } := by
  rw [handleSessionIdle]
  simp only [hact, if_true, hpd, Bool.and_false, Bool.false_eq_true, if_false]
  rw [hsid]
  simp only [strVal, hsid2, Bool.false_eq_true, if_false]
  by_cases hss : st.sessionId = some sid
  · rw [if_pos hss, if_pos ⟨hmax, hiter⟩]
  · rw [if_neg hss,
      if_pos (show ({ st with sessionId := some sid } : LoopState).maxIterations > 0 ∧
        ({ st with sessionId := some sid } : LoopState).iteration ≥
          ({ st with sessionId := some sid } : LoopState).maxIterations
        from ⟨hmax, hiter⟩)]

theorem sessionIdle_limit_terminal_witness :
    demoState.active = true ∧
    (match strVal (some "s".data) with
      | some s => some s
      | none => demoState.sessionId) = some "s".data ∧
    ("s".data).isEmpty = false ∧
    demoState.maxIterations > 0 ∧
    demoState.iteration ≥ demoState.maxIterations ∧
    handleSessionIdle (some demoState) (some "s".data) false =
      { finalState := none, sentPrompt := none,
        toast := some ("Ralph loop: Max iterations (2) reached.".data,
          "warning".data) } := by
  refine ⟨rfl, by decide, by decide, by decide, by decide, ?_⟩
  have h := sessionIdle_limit_terminal demoState rfl (some "s".data) false rfl
    "s".data (by decide) (by decide) (by decide) (by decide)
  simpa using h

/-! ## The commit-message formatter -/

/-- `title.replace(/\*\*/g, "")`: every `**` pair removed. -/
def stripBold : List Char → List Char
  | '*' :: '*' :: rest => stripBold rest
  | a :: rest => a :: stripBold rest
  | [] => []

/-- Modelled from the spec: the `formatCommitMessage` helper of the git
collaborator, whose implementation file is not among the staged sources
(git.test.ts imports and tests it).  Per the spec, the commit subject is
`"<tag>: task <N> - <short title>"` with tag `feat(nelson)`; bold
markers are stripped from the trimmed title, and when the cleaned title
contains a dash-separated trailing clause, the heading before the first
`" - "` becomes the short title and the trimmed remainder the body. -/
def formatCommitMessage (title : List Char) (n : Nat) :
    List Char × Option (List Char) :=
  let clean := jsTrim (stripBold title)
  match findSub " - ".data clean with
  | some i =>
    let short := jsTrim (clean.take i)
    let body := jsTrim (clean.drop (i + 3))
    ("feat(nelson): task ".data ++ (Nat.repr n).data ++ " - ".data ++ short,
      if body.isEmpty then none else some body)
  | none =>
    ("feat(nelson): task ".data ++ (Nat.repr n).data ++ " - ".data ++ clean,
      none)

example : formatCommitMessage "Add feature".data 1 =
    ("feat(nelson): task 1 - Add feature".data, none) := by decide
example : formatCommitMessage "Test Task".data 42 =
    ("feat(nelson): task 42 - Test Task".data, none) := by decide
example : formatCommitMessage "Setup - Initialize the project".data 1 =
    ("feat(nelson): task 1 - Setup".data, some "Initialize the project".data) := by
  decide
example : formatCommitMessage "**Create API**".data 2 =
    ("feat(nelson): task 2 - Create API".data, none) := by decide
example : formatCommitMessage "**Create file** - Add main entry point".data 3 =
    ("feat(nelson): task 3 - Create file".data, some "Add main entry point".data) := by
  decide
example : formatCommitMessage "Create file** - description".data 1 =
    ("feat(nelson): task 1 - Create file".data, some "description".data) := by
  decide
example : formatCommitMessage "  Spaced title  ".data 1 =
    ("feat(nelson): task 1 - Spaced title".data, none) := by decide

theorem formatCommitMessage_eq_sep {title : List Char} (n : Nat) {i : Nat}
    (h : findSub " - ".data (jsTrim (stripBold title)) = some i) :
    formatCommitMessage title n =
      ("feat(nelson): task ".data ++ (Nat.repr n).data ++ " - ".data ++
        jsTrim ((jsTrim (stripBold title)).take i),
       if (jsTrim ((jsTrim (stripBold title)).drop (i + 3))).isEmpty then none
       else some (jsTrim ((jsTrim (stripBold title)).drop (i + 3)))) := by
  rw [formatCommitMessage]
  simp only [h]

theorem formatCommitMessage_eq_nosep {title : List Char} (n : Nat)
    (h : findSub " - ".data (jsTrim (stripBold title)) = none) :
    formatCommitMessage title n =
      ("feat(nelson): task ".data ++ (Nat.repr n).data ++ " - ".data ++
        jsTrim (stripBold title), none) := by
  rw [formatCommitMessage]
  simp only [h]

/-- C8: every commit message built for a completed task has subject
`"feat(nelson): task <N> - <short>"`; when the cleaned task title has a
dash-separated trailing clause (it splits as `a ++ " - " ++ b` at the
first occurrence), the heading alone becomes the subject's short title
and the trimmed remainder the commit body; with no separator there is no
body. -/
theorem formatCommitMessage_correct (title : List Char) (n : Nat) :
    (∃ short, (formatCommitMessage title n).1 =
      "feat(nelson): task ".data ++ (Nat.repr n).data ++ " - ".data ++ short) ∧
    (∀ a b, jsTrim (stripBold title) = a ++ " - ".data ++ b →
      (∀ j < a.length, ¬ (" - ".data <+: (jsTrim (stripBold title)).drop j)) →
      (formatCommitMessage title n).1 =
        "feat(nelson): task ".data ++ (Nat.repr n).data ++ " - ".data ++
          jsTrim a ∧
      (formatCommitMessage title n).2 =
        (if (jsTrim b).isEmpty then none else some (jsTrim b))) ∧
    ((¬ ∃ a b, jsTrim (stripBold title) = a ++ " - ".data ++ b) →
      (formatCommitMessage title n).2 = none) := by
  refine ⟨?_, ?_, ?_⟩
  · rcases hf : findSub " - ".data (jsTrim (stripBold title)) with _ | i
    · exact ⟨jsTrim (stripBold title), by rw [formatCommitMessage_eq_nosep n hf]⟩
    · exact ⟨jsTrim ((jsTrim (stripBold title)).take i),
        by rw [formatCommitMessage_eq_sep n hf]⟩
  · intro a b hdec hmin
    have hpre : " - ".data <+: (jsTrim (stripBold title)).drop a.length := by
      rw [hdec, List.append_assoc, List.drop_left]
      exact ⟨b, rfl⟩
    have hf : findSub " - ".data (jsTrim (stripBold title)) = some a.length :=
      findSub_of_first (by decide) hpre hmin
    rw [formatCommitMessage_eq_sep n hf]
    have htake : (jsTrim (stripBold title)).take a.length = a := by
      rw [hdec, List.append_assoc, List.take_left]
    have hdrop : (jsTrim (stripBold title)).drop (a.length + 3) = b := by
      rw [hdec, List.append_assoc, drop_append_add]
      rfl
    rw [htake, hdrop]
    exact ⟨rfl, rfl⟩
  · intro hnex
    rcases hf : findSub " - ".data (jsTrim (stripBold title)) with _ | i
    · rw [formatCommitMessage_eq_nosep n hf]
    · exfalso
      obtain ⟨s, hs⟩ := findSub_prefix hf
      apply hnex
      refine ⟨(jsTrim (stripBold title)).take i, s, ?_⟩
      conv_lhs => rw [← List.take_append_drop i (jsTrim (stripBold title)), ← hs]
      rw [List.append_assoc]

theorem formatCommitMessage_correct_witness :
    jsTrim (stripBold "Setup - Initialize the project".data) =
      "Setup".data ++ " - ".data ++ "Initialize the project".data ∧
    (∀ j < ("Setup".data).length,
      ¬ (" - ".data <+: (jsTrim (stripBold "Setup - Initialize the project".data)).drop j)) ∧
    (formatCommitMessage "Setup - Initialize the project".data 1).1 =
      "feat(nelson): task ".data ++ (Nat.repr 1).data ++ " - ".data ++
        jsTrim "Setup".data ∧
    (formatCommitMessage "Setup - Initialize the project".data 1).2 =
      (if (jsTrim "Initialize the project".data).isEmpty then none
       else some (jsTrim "Initialize the project".data)) := by
  refine ⟨by decide, by decide, ?_, ?_⟩
  · exact ((formatCommitMessage_correct "Setup - Initialize the project".data 1).2.1
      "Setup".data "Initialize the project".data (by decide) (by decide)).1
  · exact ((formatCommitMessage_correct "Setup - Initialize the project".data 1).2.1
      "Setup".data "Initialize the project".data (by decide) (by decide)).2

/-! ## The staged git collaborator: `createGitCommit`'s message format -/

/-- The JS regex `.` character class: anything but a line terminator. -/
def jsDot (c : Char) : Bool :=
  !(c = '\n' || c = '\r' || c.toNat = 0x2028 || c.toNat = 0x2029)

/-- The lazy scan of `/^\*\*(.+?)\*\*(.*)$/` past the opening `**`:
`acc` holds the heading characters read so far, reversed.  The close
succeeds at the first `**` with a nonempty heading and a terminator-free
remainder; otherwise the scanner commits one heading character and
continues, exactly as the backtracking engine does. -/
def boldSplitAux (acc : List Char) : List Char → Option (List Char × List Char)
  | [] => none
  | c :: r =>
    if c = '*' ∧ r.head? = some '*' ∧ acc ≠ [] ∧ (∀ a ∈ r.tail, jsDot a = true) then
      some (acc.reverse, r.tail)
    else if jsDot c then boldSplitAux (c :: acc) r
    else none

/-- `taskTitle.match(/^\*\*(.+?)\*\*(.*)$/)`: the captured heading and
remainder, if the title matches. -/
def boldHeadingMatch : List Char → Option (List Char × List Char)
  | '*' :: '*' :: t => boldSplitAux [] t
  | _ => none

/-- The commit subject and body computed by `createGitCommit`
(src/git.ts lines 47-74) for a completed task: on a bold-heading match
the trimmed heading becomes the subject's short title and the trimmed
remainder the body when nonempty; otherwise the whole (untrimmed) title
is the short title and there is no body.  The git side effects around
this computation are outside the model. -/
def createCommitMessage (taskTitle : List Char) (taskNum : Nat) :
    List Char × Option (List Char) :=
  match boldHeadingMatch taskTitle with
  | some (h, r) =>
    let heading := jsTrim h
    let description := jsTrim r
    ("feat(ralph): task ".data ++ (Nat.repr taskNum).data ++ " - ".data ++ heading,
      if description.isEmpty then none else some description)
  | none =>
    ("feat(ralph): task ".data ++ (Nat.repr taskNum).data ++ " - ".data ++ taskTitle,
      none)

example : createCommitMessage "Add feature".data 1 =
    ("feat(ralph): task 1 - Add feature".data, none) := by decide
example : createCommitMessage "**Create API**".data 2 =
    ("feat(ralph): task 2 - Create API".data, none) := by decide
example : createCommitMessage "**Create file** - Add main entry point".data 3 =
    ("feat(ralph): task 3 - Create file".data, some "- Add main entry point".data) := by
  decide
example : createCommitMessage "Setup - Initialize the project".data 1 =
    ("feat(ralph): task 1 - Setup - Initialize the project".data, none) := by decide
example : createCommitMessage "**a**b**c**".data 1 =
    ("feat(ralph): task 1 - a".data, some "b**c**".data) := by decide

/-- Completeness of the lazy scan: the shortest valid heading split is
the one returned. -/
theorem boldSplitAux_of_first (h r : List Char) (acc : List Char)
    (hne : acc = [] → h ≠ [])
    (hh : ∀ a ∈ h, jsDot a = true) (hr : ∀ a ∈ r, jsDot a = true)
    (hmin : ∀ h2 r2, h ++ '*' :: '*' :: r = h2 ++ '*' :: '*' :: r2 →
      (acc = [] → h2 ≠ []) → (∀ a ∈ h2, jsDot a = true) →
      (∀ a ∈ r2, jsDot a = true) → h.length ≤ h2.length) :
    boldSplitAux acc (h ++ '*' :: '*' :: r) = some (acc.reverse ++ h, r) := by
  induction h generalizing acc with
  | nil =>
    have hacc : acc ≠ [] := fun he => hne he rfl
    rw [List.nil_append, boldSplitAux]
    rw [if_pos ⟨rfl, rfl, hacc, hr⟩]
    simp
  | cons c h1 ih =>
    have hcdot : jsDot c = true := hh c (List.mem_cons_self _ _)
    rw [List.cons_append, boldSplitAux]
    by_cases hclose : c = '*' ∧ (h1 ++ '*' :: '*' :: r).head? = some '*' ∧ acc ≠ [] ∧
        (∀ a ∈ (h1 ++ '*' :: '*' :: r).tail, jsDot a = true)
    · exfalso
      obtain ⟨hc, hhead, hacc, htail⟩ := hclose
      rcases t1case : h1 ++ '*' :: '*' :: r with _ | ⟨b, t2⟩
      · rw [t1case] at hhead
        simp at hhead
      · have hb : b = '*' := by
          rw [t1case] at hhead
          simpa using hhead
        have hdec0 : (c :: h1) ++ '*' :: '*' :: r = [] ++ '*' :: '*' :: t2 := by
          rw [List.cons_append, t1case, hc, hb]
          simp
        have hlen := hmin [] t2 hdec0 (fun he => absurd he hacc) (by simp)
          (by
            rw [t1case] at htail
            simpa using htail)
        simp at hlen
    · rw [if_neg hclose, if_pos hcdot]
      have hmin1 : ∀ h2 r2, h1 ++ '*' :: '*' :: r = h2 ++ '*' :: '*' :: r2 →
          (c :: acc = [] → h2 ≠ []) → (∀ a ∈ h2, jsDot a = true) →
          (∀ a ∈ r2, jsDot a = true) → h1.length ≤ h2.length := by
        intro h2 r2 hdec hne2 hh2 hr2
        have hlen := hmin (c :: h2) r2 (by rw [List.cons_append, hdec, List.cons_append])
          (fun _ => by simp)
          (by
            intro a ha
            rcases List.mem_cons.1 ha with rfl | ha
            · exact hcdot
            · exact hh2 a ha) hr2
        simpa using hlen
      rw [ih (c :: acc) (fun he => absurd he (by simp))
        (fun a ha => hh a (List.mem_cons_of_mem _ ha)) hmin1]
      simp

/-- Soundness of the lazy scan: when no valid heading split exists the
scan fails. -/
theorem boldSplitAux_none (t : List Char) (acc : List Char)
    (hnone : ∀ h2 r2, t = h2 ++ '*' :: '*' :: r2 → (acc = [] → h2 ≠ []) →
      (∀ a ∈ h2, jsDot a = true) → (∀ a ∈ r2, jsDot a = true) → False) :
    boldSplitAux acc t = none := by
  induction t generalizing acc with
  | nil => rw [boldSplitAux]
  | cons c r ihr =>
    rw [boldSplitAux]
    by_cases hclose : c = '*' ∧ r.head? = some '*' ∧ acc ≠ [] ∧
        (∀ a ∈ r.tail, jsDot a = true)
    · exfalso
      obtain ⟨hc, hhead, hacc, htail⟩ := hclose
      rcases r with _ | ⟨b, r1⟩
      · simp at hhead
      · have hb : b = '*' := by simpa using hhead
        exact hnone [] r1 (by rw [hc, hb]; simp) (fun he => absurd he hacc)
          (by simp) (by simpa using htail)
    · rw [if_neg hclose]
      by_cases hcdot : jsDot c = true
      · rw [if_pos hcdot]
        apply ihr
        intro h2 r2 hdec hne2 hh2 hr2
        exact hnone (c :: h2) r2 (by rw [hdec, List.cons_append]) (fun _ => by simp)
          (by
            intro a ha
            rcases List.mem_cons.1 ha with rfl | ha
            · exact hcdot
            · exact hh2 a ha) hr2
      · rw [if_neg hcdot]

theorem createCommitMessage_eq_bold {title : List Char} (n : Nat)
    {h r : List Char} (hm : boldHeadingMatch title = some (h, r)) :
    createCommitMessage title n =
      ("feat(ralph): task ".data ++ (Nat.repr n).data ++ " - ".data ++ jsTrim h,
       if (jsTrim r).isEmpty then none else some (jsTrim r)) := by
  rw [createCommitMessage]
  simp only [hm]

theorem createCommitMessage_eq_plain {title : List Char} (n : Nat)
    (hm : boldHeadingMatch title = none) :
    createCommitMessage title n =
      ("feat(ralph): task ".data ++ (Nat.repr n).data ++ " - ".data ++ title,
       none) := by
  rw [createCommitMessage]
  simp only [hm]

/-! ## Claim C8 -/

/-- C8 counterexample: neither commit formatter treats both separators
as the claim states.  The staged `createGitCommit` leaves a
dash-separated title whole (the entire title becomes the short title
and there is no body), and the test-evidenced nelson
`formatCommitMessage` merely strips the markers of a bold heading with
a plain trailing clause instead of splitting on it. -/
theorem commitMessage_separator_fails :
    createCommitMessage "Setup - Initialize the project".data 1 =
      ("feat(ralph): task 1 - Setup - Initialize the project".data, none) ∧
    formatCommitMessage "**Heading** rest".data 1 =
      ("feat(nelson): task 1 - Heading rest".data, none) := by
  decide

/-- C8 (amended): the staged `createGitCommit` always builds a subject
of the form `"feat(ralph): task <N> - <short>"`.  A detected bold
heading — the title is `**` ++ heading ++ `**` ++ rest with the lazy
(shortest) heading, all line-terminator-free — makes the trimmed
heading the short title and the trimmed remainder the body, absent when
empty.  Without such a match the whole title is the short title and
there is never a body: in particular a dash-separated trailing clause
is not a separator for this function. -/
theorem createCommitMessage_correct (title : List Char) (n : Nat) :
    (∃ short, (createCommitMessage title n).1 =
      "feat(ralph): task ".data ++ (Nat.repr n).data ++ " - ".data ++ short) ∧
    (∀ h r, title = '*' :: '*' :: (h ++ '*' :: '*' :: r) → h ≠ [] →
      (∀ a ∈ h, jsDot a = true) → (∀ a ∈ r, jsDot a = true) →
      (∀ h2 r2, h ++ '*' :: '*' :: r = h2 ++ '*' :: '*' :: r2 → h2 ≠ [] →
        (∀ a ∈ h2, jsDot a = true) → (∀ a ∈ r2, jsDot a = true) →
        h.length ≤ h2.length) →
      createCommitMessage title n =
        ("feat(ralph): task ".data ++ (Nat.repr n).data ++ " - ".data ++ jsTrim h,
         if (jsTrim r).isEmpty then none else some (jsTrim r))) ∧
    ((¬ ∃ t h r, title = '*' :: '*' :: t ∧ t = h ++ '*' :: '*' :: r ∧ h ≠ [] ∧
        (∀ a ∈ h, jsDot a = true) ∧ (∀ a ∈ r, jsDot a = true)) →
      createCommitMessage title n =
        ("feat(ralph): task ".data ++ (Nat.repr n).data ++ " - ".data ++ title,
         none)) := by
  refine ⟨?_, ?_, ?_⟩
  · rcases hm : boldHeadingMatch title with _ | ⟨h, r⟩
    · exact ⟨title, by rw [createCommitMessage_eq_plain n hm]⟩
    · exact ⟨jsTrim h, by rw [createCommitMessage_eq_bold n hm]⟩
  · intro h r htitle hne hh hr hmin
    have hm : boldHeadingMatch title = some (h, r) := by
      rw [htitle, boldHeadingMatch]
      have := boldSplitAux_of_first h r [] (fun _ => hne) hh hr
        (fun h2 r2 hdec hne2 hh2 hr2 => hmin h2 r2 hdec (hne2 rfl) hh2 hr2)
      simpa using this
    rw [createCommitMessage_eq_bold n hm]
  · intro hnex
    have hm : boldHeadingMatch title = none := by
      rcases title with _ | ⟨a, _ | ⟨b, t⟩⟩
      · rfl
      · rw [boldHeadingMatch.eq_def]
        by_cases ha : a = '*'
        · simp [ha]
        · simp [ha]
      · by_cases ha : a = '*'
        · by_cases hb : b = '*'
          · subst ha
            subst hb
            rw [boldHeadingMatch]
            apply boldSplitAux_none
            intro h2 r2 hdec hne2 hh2 hr2
            exact hnex ⟨t, h2, r2, rfl, hdec, hne2 rfl, hh2, hr2⟩
          · rw [boldHeadingMatch.eq_def]
            simp [hb]
        · rw [boldHeadingMatch.eq_def]
          simp [ha]
    rw [createCommitMessage_eq_plain n hm]

theorem createCommitMessage_correct_witness :
    "**A** description".data =
      '*' :: '*' :: ("A".data ++ '*' :: '*' :: " description".data) ∧
    "A".data ≠ [] ∧
    (∀ a ∈ "A".data, jsDot a = true) ∧
    (∀ a ∈ " description".data, jsDot a = true) ∧
    createCommitMessage "**A** description".data 2 =
      ("feat(ralph): task ".data ++ (Nat.repr 2).data ++ " - ".data ++
        jsTrim "A".data,
       if (jsTrim " description".data).isEmpty then none
       else some (jsTrim " description".data)) := by
  refine ⟨by decide, by decide, by decide, by decide, ?_⟩
  exact (createCommitMessage_correct "**A** description".data 2).2.1
    "A".data " description".data (by decide) (by decide) (by decide) (by decide)
    (fun h2 r2 _ hne _ _ => List.length_pos.2 hne)
